import Mathlib

/-!
Shallow embedding of the speaker-splitter program (src/speaker_splitter.py):
its timestamp parser `timestamp_to_milliseconds` and its per-speaker track
compositor `create_speaker_audio` / `process_audio`, with proofs of the
specified properties.

Modelling conventions:
* A waveform is a `List ℤ` of per-millisecond sample amplitudes (one sample
  per millisecond, single channel); its length is its duration in
  milliseconds.  `w` is the sample width in bytes; sample sums saturate to
  the interval from `-(2^(8*w-1))` to `2^(8*w-1) - 1`, as the standard
  library routine `audioop.add` used by pydub does.
* Python `float` arithmetic is modelled exactly: a double is a dyadic
  rational (`PyFloat64.finite m e` with value `m * 2^e`), an infinity or a
  NaN; decimal-to-double conversion and each arithmetic operation round to
  nearest with ties to even (`roundFinite`), with overflow to infinity,
  and `int(...)` truncates toward zero.  `int()`/`float()` string parsing
  follows CPython: surrounding ASCII whitespace, signs, underscore digit
  separators, exponent notation and `inf`/`infinity`/`nan`; only
  non-ASCII digits and non-ASCII whitespace are out of model.
* pydub `AudioSegment` slicing and `overlay` are modelled at millisecond
  granularity following their semantics: slice bounds are first capped at
  the segment length, negative bounds count from the end (Python sequence
  slicing), and `overlay` never extends the destination buffer.
-/

namespace SpeakerSplitter

/-- One diarization segment, as read from the JSON document: keys
`speaker`, `start`, `end` and `text` of `segments` entries. -/
structure Segment where
  speaker : String
  start : String
  «end» : String
  text : String

/-- Python `time_str.replace(",", ".")` on a character list. -/
def commaToDot (cs : List Char) : List Char :=
  cs.map (fun c => if c = ',' then '.' else c)

/-- Python `str.split(sep)` for a one-character separator: `""` yields
`[""]`, separators at the ends yield empty groups. -/
def splitOnChar (sep : Char) : List Char → List (List Char)
  | [] => [[]]
  | c :: cs =>
    match splitOnChar sep cs with
    | [] => [[c]]
    | g :: gs => if c = sep then [] :: g :: gs else (c :: g) :: gs

/-- Numeric value of a decimal digit character, `none` on a non-digit. -/
def digitVal (c : Char) : Option ℕ :=
  if 48 ≤ c.toNat ∧ c.toNat ≤ 57 then some (c.toNat - 48) else none

/-- ASCII whitespace stripped by Python's `int(str)` and `float(str)`. -/
def isPySpace (c : Char) : Bool :=
  c = ' ' || c = '\t' || c = '\n' || c = '\r' || c = '\x0b' || c = '\x0c'

/-- Strip leading and trailing whitespace, as Python's numeric string
conversions do before parsing. -/
def stripPySpace (cs : List Char) : List Char :=
  ((cs.dropWhile (fun c => isPySpace c)).reverse.dropWhile
    (fun c => isPySpace c)).reverse

/-- Accumulating parser for a Python digit run: decimal digits in which an
underscore may appear only between two digits (PEP 515).  Returns the
value and the number of digits consumed. -/
def parseUDigitsGo : List Char → ℕ → ℕ → Option (ℕ × ℕ)
  | [], acc, cnt => some (acc, cnt)
  | c :: rest, acc, cnt =>
    if c = '_' then
      match rest with
      | c2 :: rest2 =>
        match digitVal c2 with
        | some d => parseUDigitsGo rest2 (10 * acc + d) (cnt + 1)
        | none => none
      | [] => none
    else
      match digitVal c with
      | some d => parseUDigitsGo rest (10 * acc + d) (cnt + 1)
      | none => none

/-- Parse a non-empty Python digit run (it must start with a digit). -/
def parseUDigits : List Char → Option (ℕ × ℕ)
  | c :: rest =>
    match digitVal c with
    | some d => parseUDigitsGo rest d 1
    | none => none
  | [] => none

/-- Python `int(str)` (base 10): surrounding whitespace, an optional sign,
then digits with underscore separators; `none` models a raised
`ValueError`.  (Non-ASCII decimal digits, which CPython also accepts, are
not modelled; no statement below relies on their absence.) -/
def pyInt (cs : List Char) : Option ℤ :=
  match stripPySpace cs with
  | c :: rest =>
    if c = '-' then (parseUDigits rest).map (fun p => -(p.1 : ℤ))
    else if c = '+' then (parseUDigits rest).map (fun p => (p.1 : ℤ))
    else (parseUDigits (c :: rest)).map (fun p => (p.1 : ℤ))
  | [] => none

/-- Binary length of a natural number (`int.bit_length`), via structural
fuel so that it evaluates inside the kernel. -/
def bitlenAux : ℕ → ℕ → ℕ
  | 0, _ => 0
  | fuel + 1, n => if n = 0 then 0 else bitlenAux fuel (n / 2) + 1

/-- Binary length: `bitlen n = k` iff `2^(k-1) ≤ n < 2^k` (and 0 for 0). -/
def bitlen (n : ℕ) : ℕ := bitlenAux n n

/-- An IEEE-754 binary64 value: a finite dyadic `m * 2^e` (not necessarily
normalised — only the value matters), an infinity, or a NaN. -/
inductive PyFloat64
  | finite (m : ℤ) (e : ℤ)
  | posinf
  | neginf
  | nan
deriving DecidableEq

/-- Round `m / t` (for `t > 0`) to the nearest integer, ties to even. -/
def rneHalfEven (m t : ℤ) : ℤ :=
  let q := m / t
  let r := m % t
  if 2 * r < t then q
  else if t < 2 * r then q + 1
  else if q % 2 = 0 then q else q + 1

/-- Round the dyadic value `m * 2^e` to binary64: round to nearest, ties
to even, overflow to infinity, subnormals rounded at `2^-1074`. -/
def roundFinite (m : ℤ) (e : ℤ) : PyFloat64 :=
  if m = 0 then .finite 0 0
  else
    let bits : ℤ := bitlen m.natAbs
    let shift : ℤ := max (bits - 53) (-1074 - e)
    if shift ≤ 0 then
      if 1024 < bits + e then (if 0 < m then .posinf else .neginf)
      else .finite m e
    else
      let q := rneHalfEven (m.natAbs : ℤ) (2 ^ shift.toNat)
      if q = 0 then .finite 0 0
      else if 1024 < (bitlen q.natAbs : ℤ) + e + shift then
        (if 0 < m then .posinf else .neginf)
      else .finite (if 0 < m then q else -q) (e + shift)

/-- Correctly rounded quotient at a fixed scale: the nearest integer (ties
to even) to `(mant / d) * 2^(-eL)`. -/
def scaledQuot (mant d : ℕ) (eL : ℤ) : ℤ :=
  if eL ≤ 0 then rneHalfEven ((mant : ℤ) * 2 ^ (-eL).toNat) (d : ℤ)
  else rneHalfEven (mant : ℤ) ((d : ℤ) * 2 ^ eL.toNat)

/-- Round the positive rational `mant / d` to binary64. -/
def f64OfPos (mant d : ℕ) : PyFloat64 :=
  let e1 : ℤ := max ((bitlen mant : ℤ) - (bitlen d : ℤ) - 53) (-1074)
  let q1 := scaledQuot mant d e1
  let q := if 2 ^ 53 ≤ q1 then scaledQuot mant d (e1 + 1) else q1
  let e := if 2 ^ 53 ≤ q1 then e1 + 1 else e1
  if q = 0 then .finite 0 0
  else if 1024 < (bitlen q.natAbs : ℤ) + e then .posinf
  else .finite q e

/-- The binary64 value of the decimal `± mant * 10^t`, as produced by
Python's `float(str)` (correctly rounded decimal-to-double conversion). -/
def f64OfDec (neg : Bool) (mant : ℕ) (t : ℤ) : PyFloat64 :=
  if mant = 0 then .finite 0 0
  else
    let r := if 0 ≤ t then roundFinite ((mant : ℤ) * 10 ^ t.toNat) 0
             else f64OfPos mant (10 ^ (-t).toNat)
    match r with
    | .finite m e => .finite (if neg then -m else m) e
    | .posinf => if neg then .neginf else .posinf
    | x => x

/-- Negation of a binary64 value. -/
def f64Neg : PyFloat64 → PyFloat64
  | .finite m e => .finite (-m) e
  | .posinf => .neginf
  | .neginf => .posinf
  | .nan => .nan

/-- Split at the first exponent marker `e` or `E`, keeping what follows. -/
def splitExpPart : List Char → List Char × Option (List Char)
  | [] => ([], none)
  | c :: rest =>
    if c = 'e' ∨ c = 'E' then ([], some rest)
    else
      let p := splitExpPart rest
      (c :: p.1, p.2)

/-- Case-insensitive ASCII word match: each character must equal the
lower- or upper-case letter of the corresponding pair. -/
def matchCI : List Char → List (Char × Char) → Bool
  | [], [] => true
  | c :: cs, p :: ps => (c = p.1 || c = p.2) && matchCI cs ps
  | _, _ => false

/-- The letter pairs of the word `inf`. -/
def infPairs : List (Char × Char) := [('i', 'I'), ('n', 'N'), ('f', 'F')]

/-- The letter pairs of the word `infinity`. -/
def infinityPairs : List (Char × Char) :=
  [('i', 'I'), ('n', 'N'), ('f', 'F'), ('i', 'I'), ('n', 'N'), ('i', 'I'),
   ('t', 'T'), ('y', 'Y')]

/-- The letter pairs of the word `nan`. -/
def nanPairs : List (Char × Char) := [('n', 'N'), ('a', 'A'), ('n', 'N')]

/-- Parse an unsigned float mantissa (digits with at most one decimal
point, at least one digit): returns the digits' value with the fraction
scaled in, and the number of fractional digits. -/
def parseMantissa (cs : List Char) : Option (ℕ × ℕ) :=
  match splitOnChar '.' cs with
  | [ip] => (parseUDigits ip).map (fun p => (p.1, 0))
  | [ip, fp] =>
    if ip.isEmpty && fp.isEmpty then none
    else if ip.isEmpty then (parseUDigits fp).map (fun p => (p.1, p.2))
    else if fp.isEmpty then (parseUDigits ip).map (fun p => (p.1, 0))
    else
      match parseUDigits ip, parseUDigits fp with
      | some a, some b => some (a.1 * 10 ^ b.2 + b.1, b.2)
      | _, _ => none
  | _ => none

/-- Parse a float exponent: an optional sign, then a digit run. -/
def parseExpPart (cs : List Char) : Option ℤ :=
  match cs with
  | c :: rest =>
    if c = '-' then (parseUDigits rest).map (fun p => -(p.1 : ℤ))
    else if c = '+' then (parseUDigits rest).map (fun p => (p.1 : ℤ))
    else (parseUDigits (c :: rest)).map (fun p => (p.1 : ℤ))
  | [] => none

/-- Python `float(str)` after sign stripping: `inf`, `infinity` or `nan`
(case-insensitive), or a decimal literal with optional fraction and
exponent, converted to the nearest binary64 value. -/
def pyFloatUnsignedVal (cs : List Char) : Option PyFloat64 :=
  if matchCI cs infPairs || matchCI cs infinityPairs then some .posinf
  else if matchCI cs nanPairs then some .nan
  else
    let pieces := splitExpPart cs
    match parseMantissa pieces.1 with
    | none => none
    | some mf =>
      match pieces.2 with
      | none => some (f64OfDec false mf.1 (-(mf.2 : ℤ)))
      | some ex =>
        match parseExpPart ex with
        | none => none
        | some xv => some (f64OfDec false mf.1 (xv - (mf.2 : ℤ)))

/-- Python `float(str)`: surrounding whitespace, an optional sign, then an
unsigned float literal; `none` models a raised `ValueError`.  (Non-ASCII
decimal digits are not modelled, as for `pyInt`.) -/
def pyFloat (cs : List Char) : Option PyFloat64 :=
  match stripPySpace cs with
  | c :: rest =>
    if c = '-' then (pyFloatUnsignedVal rest).map f64Neg
    else if c = '+' then pyFloatUnsignedVal rest
    else pyFloatUnsignedVal (c :: rest)
  | [] => none

/-- Python `A + x` for an `int` `A` and a `float` `x`: the int is first
converted to a double (raising `OverflowError`, modelled as `none`, when
it does not fit), then one correctly rounded double addition. -/
def f64AddInt (a : ℤ) (f : PyFloat64) : Option PyFloat64 :=
  match roundFinite a 0 with
  | .finite ma ea =>
    match f with
    | .nan => some .nan
    | .posinf => some .posinf
    | .neginf => some .neginf
    | .finite m e =>
      some (if ea ≤ e then roundFinite (ma + m * 2 ^ (e - ea).toNat) ea
            else roundFinite (ma * 2 ^ (ea - e).toNat + m) e)
  | _ => none

/-- Python `x * 1000` on a double: one correctly rounded multiplication. -/
def f64Mul1000 (f : PyFloat64) : PyFloat64 :=
  match f with
  | .finite m e => roundFinite (m * 1000) e
  | x => x

/-- Python `int(x)` on a double: truncation toward zero; `none` models the
exception raised on an infinity or NaN. -/
def pyIntOfF64 (f : PyFloat64) : Option ℤ :=
  match f with
  | .finite m e =>
    some (if 0 ≤ e then m * 2 ^ e.toNat
          else if m < 0 then -((-m) / 2 ^ (-e).toNat)
          else m / 2 ^ (-e).toNat)
  | _ => none

/-- Characters that may occur in a (base-10, ASCII) Python `int` literal:
digits, signs, underscore separators and surrounding whitespace.  A field
containing an ASCII character outside this set always makes `int()`
raise. -/
def intLitChar (c : Char) : Bool :=
  (digitVal c).isSome || c = '+' || c = '-' || c = '_' || isPySpace c

/-- Characters that may occur in an (ASCII) Python `float` literal:
the `int` characters plus the decimal point, the exponent markers and the
letters of `inf`, `infinity` and `nan`.  A field containing an ASCII
character outside this set always makes `float()` raise. -/
def floatLitChar (c : Char) : Bool :=
  intLitChar c || c = '.' || c = 'e' || c = 'E' || c = 'i' || c = 'I'
    || c = 'n' || c = 'N' || c = 'f' || c = 'F' || c = 'a' || c = 'A'
    || c = 't' || c = 'T' || c = 'y' || c = 'Y'

/-- The arithmetic tail of the parser: add the (integer) number of
seconds from the hour and minute fields to the seconds double, multiply by
1000 (both in binary64), and truncate with `int()`. -/
def timePipeline (a : ℤ) (sec : PyFloat64) : Option ℤ :=
  match f64AddInt a sec with
  | some t => pyIntOfF64 (f64Mul1000 t)
  | none => none

/-- The fallible core of `timestamp_to_milliseconds`
(src/speaker_splitter.py lines 134-143): replace commas by dots, split on
`:`, read `int(parts[0])`, `int(parts[1])`, `float(parts[2])` and compute
`int((hours*3600 + minutes*60 + seconds) * 1000)` in IEEE binary64
arithmetic; `none` models a raised (and later caught) exception.  Note
that parts beyond the third are silently ignored, exactly as
`time_parts[0..2]` indexing does. -/
def timestampToMsOpt (s : String) : Option ℤ :=
  match splitOnChar ':' (commaToDot s.data) with
  | p0 :: p1 :: p2 :: _ =>
    match pyInt p0, pyInt p1, pyFloat p2 with
    | some h, some m, some sec => timePipeline (h * 3600 + m * 60) sec
    | _, _, _ => none
  | _ => none

/-- `timestamp_to_milliseconds` (src/speaker_splitter.py lines 124-146):
any exception is caught and the function returns 0. -/
def timestamp_to_milliseconds (s : String) : ℤ :=
  (timestampToMsOpt s).getD 0

/-- `audioop.add` on one sample pair: saturating addition at width `w`
bytes. -/
def satAdd (w : ℕ) (x y : ℤ) : ℤ :=
  max (-(2 ^ (8 * w - 1))) (min (2 ^ (8 * w - 1) - 1) (x + y))

/-- pydub position normalisation (`AudioSegment._parse_position` followed
by Python sequence-slice clamping of the underlying data): a negative
position counts from the end; a position that is still negative after that
adjustment wraps once more at the data level and is finally clamped at 0.
The argument is assumed already capped at `L` (pydub caps with
`min(position, len(self))` before calling `_parse_position`). -/
def pydubIdx (L v : ℤ) : ℤ :=
  if v < 0 then
    (if L + v < 0 then max 0 (L + (L + v)) else L + v)
  else v

/-- pydub millisecond slicing `seg[start:stop]`: both bounds are first
capped at the length, then normalised by `pydubIdx`, and the sub-range
between the resulting indices is extracted. -/
def pydubSlice (a : List ℤ) (start stop : ℤ) : List ℤ :=
  (a.take (pydubIdx (a.length : ℤ) (min stop (a.length : ℤ))).toNat).drop
    (pydubIdx (a.length : ℤ) (min start (a.length : ℤ))).toNat

/-- pydub `dest.overlay(src, position=p)` with `times=1`: keep
`dest[:p]`, mix `src` sample-wise (saturating add) into `dest[p:]`
truncating `src` to what fits, and keep the remainder of `dest[p:]`.
The result always has the length of `dest`. -/
def overlay (w : ℕ) (dest src : List ℤ) (position : ℤ) : List ℤ :=
  pydubSlice dest 0 position
    ++ List.zipWith (satAdd w) (pydubSlice dest position (dest.length : ℤ)) src
    ++ (pydubSlice dest position (dest.length : ℤ)).drop
        (min src.length (pydubSlice dest position (dest.length : ℤ)).length)

/-- One iteration of the segment loop of `create_speaker_audio`
(src/speaker_splitter.py lines 174-181). -/
def segmentStep (w : ℕ) (audio : List ℤ) (speaker_id : String)
    (acc : List ℤ) (seg : Segment) : List ℤ :=
  if seg.speaker = speaker_id then
    overlay w acc
      (pydubSlice audio (timestamp_to_milliseconds seg.start)
        (timestamp_to_milliseconds seg.«end»))
      (timestamp_to_milliseconds seg.start)
  else acc

/-- `create_speaker_audio` (src/speaker_splitter.py lines 148-186) without
the file I/O: start from silence of the source's duration and composite
every segment of the requested speaker over it. -/
def create_speaker_audio (w : ℕ) (audio : List ℤ) (segments : List Segment)
    (speaker_id : String) : List ℤ :=
  segments.foldl (segmentStep w audio speaker_id)
    (List.replicate audio.length 0)

/-- Append a speaker identifier if it is not present yet. -/
def insertUnique (l : List String) (s : String) : List String :=
  if s ∈ l then l else l ++ [s]

/-- The set of distinct speaker identifiers of a document, in order of
first occurrence.  (The Python code builds `set(...)`; its membership is
modelled exactly, while its iteration order is implementation-defined and
is modelled here as first-occurrence order.) -/
def uniqueSpeakers (segs : List Segment) : List String :=
  segs.foldl (fun acc sg => insertUnique acc sg.speaker) []

/-- `process_audio` (src/speaker_splitter.py lines 188-227) without the
file I/O: `none` models the fatal `sys.exit` taken when the speaker set is
empty; otherwise one output waveform per distinct speaker is produced. -/
def process_audio (w : ℕ) (audio : List ℤ) (segs : List Segment) :
    Option (List (String × List ℤ)) :=
  if uniqueSpeakers segs = [] then none
  else some ((uniqueSpeakers segs).map
    (fun sp => (sp, create_speaker_audio w audio segs sp)))

/-- Two-digit decimal rendering of `n < 100`. -/
def pad2 (n : ℕ) : List Char :=
  [Nat.digitChar (n / 10), Nat.digitChar (n % 10)]

/-- Three-digit decimal rendering of `n < 1000`. -/
def pad3 (n : ℕ) : List Char :=
  [Nat.digitChar (n / 100), Nat.digitChar (n / 10 % 10), Nat.digitChar (n % 10)]

/-- A well-formed timecode string in the format `HH:MM:SS,mmm`. -/
def renderTimecode (h m s ms : ℕ) : String :=
  String.mk (pad2 h ++ ':' :: (pad2 m ++ ':' :: (pad2 s ++ ',' :: pad3 ms)))

/-- The normalised cut index used both by slicing and by `overlay`:
cap at `L`, then normalise negative positions. -/
def cutAt (L : ℕ) (p : ℤ) : ℕ :=
  (pydubIdx (L : ℤ) (min p (L : ℤ))).toNat

/-- First destination index written when compositing a segment `sg` onto a
buffer of length `L`. -/
def segLo (L : ℕ) (sg : Segment) : ℕ :=
  cutAt L (timestamp_to_milliseconds sg.start)

/-- One past the last destination index written when compositing a segment
`sg` onto a buffer of length `L`. -/
def segHi (L : ℕ) (sg : Segment) : ℕ :=
  cutAt L (timestamp_to_milliseconds sg.«end»)

/-- Whether a segment writes index `i` of a buffer of the source's
length (Boolean form, for counting). -/
def touchesB (audio : List ℤ) (S : String) (i : ℕ) (sg : Segment) : Bool :=
  decide (sg.speaker = S) && decide (segLo audio.length sg ≤ i)
    && decide (i < segHi audio.length sg)

/-- Checks that a binary64 value is exactly the integer `x`, represented
with a limited negative exponent: `f = finite (x * 2^k) (-k)` for some
`k ≤ kmax`. -/
def intValRep (f : PyFloat64) (x : ℤ) (kmax : ℕ) : Bool :=
  match f with
  | .finite m e =>
    decide (-(kmax : ℤ) ≤ e) && decide (e ≤ 0) && (m == x * 2 ^ (-e).toNat)
  | _ => false

lemma cutAt_le (L : ℕ) (p : ℤ) : cutAt L p ≤ L := by
  unfold cutAt pydubIdx
  split_ifs <;> omega

lemma cutAt_zero (L : ℕ) : cutAt L 0 = 0 := by
  unfold cutAt pydubIdx
  split_ifs <;> omega

lemma cutAt_len (L : ℕ) : cutAt L (L : ℤ) = L := by
  unfold cutAt pydubIdx
  split_ifs <;> omega

lemma cutAt_of_nonneg (L : ℕ) (p : ℤ) (hp : 0 ≤ p) :
    cutAt L p = min p.toNat L := by
  unfold cutAt pydubIdx
  split_ifs <;> omega

/-- `pydubSlice` in cut-index normal form. -/
lemma pydubSlice_eq (a : List ℤ) (s e : ℤ) :
    pydubSlice a s e = (a.take (cutAt a.length e)).drop (cutAt a.length s) :=
  rfl

lemma pydubSlice_zero (a : List ℤ) (p : ℤ) :
    pydubSlice a 0 p = a.take (cutAt a.length p) := by
  rw [pydubSlice_eq, cutAt_zero, List.drop_zero]

lemma pydubSlice_to_len (a : List ℤ) (p : ℤ) :
    pydubSlice a p (a.length : ℤ) = a.drop (cutAt a.length p) := by
  rw [pydubSlice_eq, cutAt_len, List.take_length]

lemma pydubSlice_length (a : List ℤ) (s e : ℤ) :
    (pydubSlice a s e).length = cutAt a.length e - cutAt a.length s := by
  rw [pydubSlice_eq, List.length_drop, List.length_take]
  have h1 := cutAt_le a.length e
  omega

/-- `overlay` in cut-index normal form. -/
lemma overlay_eq (w : ℕ) (dest src : List ℤ) (p : ℤ) :
    overlay w dest src p =
      dest.take (cutAt dest.length p)
        ++ (List.zipWith (satAdd w) (dest.drop (cutAt dest.length p)) src
            ++ (dest.drop (cutAt dest.length p)).drop
                (min src.length (dest.length - cutAt dest.length p))) := by
  unfold overlay
  rw [pydubSlice_zero, pydubSlice_to_len, List.length_drop, List.append_assoc]

/-- The overlay never changes the duration of the destination buffer. -/
lemma overlay_length (w : ℕ) (dest src : List ℤ) (p : ℤ) :
    (overlay w dest src p).length = dest.length := by
  rw [overlay_eq]
  have h := cutAt_le dest.length p
  simp [List.length_zipWith]
  omega

/-- Index-level behaviour of `overlay`: a sample in the deposited window
receives the saturating mix of destination and source; all other samples
are untouched. -/
lemma overlay_getElem? (w : ℕ) (dest src : List ℤ) (p : ℤ) (i : ℕ) :
    (overlay w dest src p)[i]? =
      if cutAt dest.length p ≤ i ∧
          i - cutAt dest.length p
            < min src.length (dest.length - cutAt dest.length p) then
        (dest[i]?).bind
          (fun d => (src[i - cutAt dest.length p]?).map (fun v => satAdd w d v))
      else dest[i]? := by
  have hk := cutAt_le dest.length p
  rw [overlay_eq]
  rcases Nat.lt_or_ge i (cutAt dest.length p) with h1 | h1
  · rw [List.getElem?_append, if_pos (by simpa [Nat.lt_min] using ⟨h1, Nat.lt_of_lt_of_le h1 hk⟩),
      List.getElem?_take, if_pos h1, if_neg (by omega)]
  · rw [List.getElem?_append_right (by simp; omega)]
    have hlen : (dest.take (cutAt dest.length p)).length = cutAt dest.length p := by
      simp [Nat.min_eq_left hk]
    rw [hlen]
    rcases Nat.lt_or_ge (i - cutAt dest.length p)
        (min src.length (dest.length - cutAt dest.length p)) with h2 | h2
    · rw [List.getElem?_append, if_pos (by simp [List.length_zipWith]; omega),
        List.getElem?_zipWith, List.getElem?_drop, if_pos ⟨h1, h2⟩]
      have hidx : cutAt dest.length p + (i - cutAt dest.length p) = i := by omega
      rw [hidx]
      have hiL : i < dest.length := by omega
      have hsrc : i - cutAt dest.length p < src.length := by omega
      rw [List.getElem?_eq_getElem hiL, List.getElem?_eq_getElem hsrc]
      rfl
    · rw [List.getElem?_append_right (by simp [List.length_zipWith]; omega),
        if_neg (by omega)]
      have hzl : (List.zipWith (satAdd w) (dest.drop (cutAt dest.length p)) src).length
          = min src.length (dest.length - cutAt dest.length p) := by
        simp [List.length_zipWith]
        omega
      rw [hzl, List.getElem?_drop, List.getElem?_drop]
      congr 1
      omega

lemma segmentStep_length (w : ℕ) (audio : List ℤ) (S : String)
    (acc : List ℤ) (sg : Segment) :
    (segmentStep w audio S acc sg).length = acc.length := by
  unfold segmentStep
  split_ifs
  · exact overlay_length w acc _ _
  · rfl

lemma foldl_segmentStep_length (w : ℕ) (audio : List ℤ) (S : String)
    (l : List Segment) (acc : List ℤ) :
    (l.foldl (segmentStep w audio S) acc).length = acc.length := by
  induction l generalizing acc with
  | nil => rfl
  | cons sg l ih => rw [List.foldl_cons, ih, segmentStep_length]

/-- Index-level behaviour of one segment step: when the segment belongs to
the requested speaker and index `i` falls in the window it writes, the
sample becomes the saturating mix of the accumulator sample and the source
sample at the same index `i`; otherwise it is untouched.  (The source
sub-range and the overlay position are normalised by the same `cutAt`, so
a deposited sample always comes from the matching source index.) -/
lemma segmentStep_getElem? (w : ℕ) (audio : List ℤ) (S : String)
    (acc : List ℤ) (sg : Segment) (i : ℕ) (hL : acc.length = audio.length)
    (v a : ℤ) (hv : audio[i]? = some v) (ha : acc[i]? = some a) :
    (segmentStep w audio S acc sg)[i]? =
      some (if sg.speaker = S ∧ segLo audio.length sg ≤ i ∧ i < segHi audio.length sg
            then satAdd w a v else a) := by
  obtain ⟨hiL, hvi⟩ := List.getElem?_eq_some.mp hv
  unfold segmentStep segLo segHi
  by_cases hsp : sg.speaker = S
  · rw [if_pos hsp, overlay_getElem?, hL]
    set k1 := cutAt audio.length (timestamp_to_milliseconds sg.start) with hk1
    set k2 := cutAt audio.length (timestamp_to_milliseconds sg.«end») with hk2
    have hlo : k1 ≤ audio.length := cutAt_le audio.length _
    have hhi : k2 ≤ audio.length := cutAt_le audio.length _
    have hsrclen : (pydubSlice audio (timestamp_to_milliseconds sg.start)
        (timestamp_to_milliseconds sg.«end»)).length = k2 - k1 := by
      rw [pydubSlice_length, ← hk1, ← hk2]
    by_cases hwin : k1 ≤ i ∧ i < k2
    · rw [if_pos (by rw [hsrclen]; refine ⟨hwin.1, ?_⟩; omega), ha]
      have hsrc : (pydubSlice audio (timestamp_to_milliseconds sg.start)
          (timestamp_to_milliseconds sg.«end»))[i - k1]? = some v := by
        rw [pydubSlice_eq, List.getElem?_drop, ← hk1, ← hk2]
        have hidx : k1 + (i - k1) = i := by omega
        rw [hidx, List.getElem?_take, if_pos hwin.2, hv]
      rw [hsrc, if_pos ⟨hsp, hwin⟩]
      rfl
    · rw [if_neg (by rw [hsrclen]; intro hcon; exact hwin ⟨hcon.1, by omega⟩),
        if_neg (by exact fun hcon => hwin hcon.2), ha]
  · rw [if_neg hsp, if_neg (by exact fun hcon => hsp hcon.1), ha]

lemma segLo_of_nonneg (L : ℕ) (sg : Segment)
    (h : 0 ≤ timestamp_to_milliseconds sg.start) :
    segLo L sg = min (timestamp_to_milliseconds sg.start).toNat L :=
  cutAt_of_nonneg L _ h

lemma segHi_of_nonneg (L : ℕ) (sg : Segment)
    (h : 0 ≤ timestamp_to_milliseconds sg.«end») :
    segHi L sg = min (timestamp_to_milliseconds sg.«end»).toNat L :=
  cutAt_of_nonneg L _ h

/-- A segment with nonnegative parsed offsets whose interval does not
contain `i` does not write index `i`. -/
lemma not_touched_of_not_covered (L : ℕ) (sg : Segment) (i : ℕ) (hiL : i < L)
    (hs : 0 ≤ timestamp_to_milliseconds sg.start)
    (he : 0 ≤ timestamp_to_milliseconds sg.«end»)
    (hnc : ¬(timestamp_to_milliseconds sg.start ≤ (i : ℤ)
        ∧ (i : ℤ) < timestamp_to_milliseconds sg.«end»)) :
    ¬(segLo L sg ≤ i ∧ i < segHi L sg) := by
  rw [segLo_of_nonneg L sg hs, segHi_of_nonneg L sg he]
  intro hcon
  exact hnc (by constructor <;> omega)

/-- A segment with nonnegative parsed start whose interval contains a
valid index `i` writes index `i`. -/
lemma touched_of_covered (L : ℕ) (sg : Segment) (i : ℕ) (hiL : i < L)
    (hs : 0 ≤ timestamp_to_milliseconds sg.start)
    (hc : timestamp_to_milliseconds sg.start ≤ (i : ℤ)
        ∧ (i : ℤ) < timestamp_to_milliseconds sg.«end») :
    segLo L sg ≤ i ∧ i < segHi L sg := by
  have he : 0 ≤ timestamp_to_milliseconds sg.«end» := by
    have : (0 : ℤ) ≤ (i : ℤ) := Int.ofNat_nonneg i
    omega
  rw [segLo_of_nonneg L sg hs, segHi_of_nonneg L sg he]
  constructor <;> omega

lemma satAdd_zero (w : ℕ) (v : ℤ) (h1 : -(2 ^ (8 * w - 1)) ≤ v)
    (h2 : v ≤ 2 ^ (8 * w - 1) - 1) : satAdd w 0 v = v := by
  unfold satAdd
  omega

/-- A fold over segments none of which writes index `i` leaves the sample
at `i` unchanged. -/
lemma foldl_segmentStep_untouched (w : ℕ) (audio : List ℤ) (S : String)
    (l : List Segment) (acc : List ℤ) (i : ℕ) (v a : ℤ)
    (hL : acc.length = audio.length) (hv : audio[i]? = some v)
    (ha : acc[i]? = some a)
    (h : ∀ sg ∈ l, ¬(sg.speaker = S ∧ segLo audio.length sg ≤ i
        ∧ i < segHi audio.length sg)) :
    (l.foldl (segmentStep w audio S) acc)[i]? = some a := by
  induction l generalizing acc with
  | nil => exact ha
  | cons sg l ih =>
    rw [List.foldl_cons]
    refine ih _ (by rw [segmentStep_length]; exact hL) ?_
      (fun sg' hsg' => h sg' (by simp [hsg']))
    rw [segmentStep_getElem? w audio S acc sg i hL v a hv ha,
      if_neg (h sg (by simp))]

/-- Hypothesis bridge: per-segment safety (nonnegative offsets, interval
missing `i`) implies that no segment of the speaker writes index `i`. -/
lemma untouched_of_safe (audio : List ℤ) (S : String) (i : ℕ)
    (hiL : i < audio.length) (l : List Segment)
    (h : ∀ sg ∈ l, sg.speaker = S →
      0 ≤ timestamp_to_milliseconds sg.start
        ∧ 0 ≤ timestamp_to_milliseconds sg.«end»
        ∧ ¬(timestamp_to_milliseconds sg.start ≤ (i : ℤ)
            ∧ (i : ℤ) < timestamp_to_milliseconds sg.«end»)) :
    ∀ sg ∈ l, ¬(sg.speaker = S ∧ segLo audio.length sg ≤ i
        ∧ i < segHi audio.length sg) := by
  intro sg hm hcon
  obtain ⟨h1, h2, h3⟩ := h sg hm hcon.1
  exact not_touched_of_not_covered audio.length sg i hiL h1 h2 h3 hcon.2

/-- A fold over segments of other speakers is the identity. -/
lemma foldl_segmentStep_no_match (w : ℕ) (audio : List ℤ) (S : String)
    (l : List Segment) (acc : List ℤ) (h : ∀ sg ∈ l, sg.speaker ≠ S) :
    l.foldl (segmentStep w audio S) acc = acc := by
  induction l generalizing acc with
  | nil => rfl
  | cons sg l ih =>
    rw [List.foldl_cons]
    rw [show segmentStep w audio S acc sg = acc from
      if_neg (h sg (by simp))]
    exact ih acc (fun sg' hsg' => h sg' (by simp [hsg']))

lemma splitOnChar_ne_nil (sep : Char) (cs : List Char) :
    splitOnChar sep cs ≠ [] := by
  induction cs with
  | nil => simp [splitOnChar]
  | cons c cs ih =>
    rw [splitOnChar]
    cases h : splitOnChar sep cs with
    | nil => exact absurd h ih
    | cons g gs => split_ifs <;> simp

/-- Splitting a separator-free string yields a single group. -/
lemma splitOnChar_sepFree (sep : Char) (g : List Char)
    (h : ∀ c ∈ g, c ≠ sep) : splitOnChar sep g = [g] := by
  induction g with
  | nil => rfl
  | cons c cs ih =>
    rw [splitOnChar, ih (fun c' hc' => h c' (by simp [hc']))]
    simp [h c (by simp)]

/-- Splitting peels a leading separator-free group. -/
lemma splitOnChar_append (sep : Char) (g : List Char)
    (h : ∀ c ∈ g, c ≠ sep) (rest : List Char) :
    splitOnChar sep (g ++ sep :: rest) = g :: splitOnChar sep rest := by
  induction g with
  | nil =>
    simp only [List.nil_append]
    cases hr : splitOnChar sep rest with
    | nil => exact absurd hr (splitOnChar_ne_nil sep rest)
    | cons g0 gs => rw [splitOnChar, hr]; simp
  | cons c cs ih =>
    rw [List.cons_append, splitOnChar,
      ih (fun c' hc' => h c' (by simp [hc']))]
    simp [h c (by simp)]

lemma digitChar_not_special (d : ℕ) (hd : d < 10) :
    Nat.digitChar d ≠ ':' ∧ Nat.digitChar d ≠ ',' ∧ Nat.digitChar d ≠ '.'
      ∧ Nat.digitChar d ≠ '-' ∧ Nat.digitChar d ≠ '+' := by
  interval_cases d <;> decide

lemma pyInt_pad2 (n : ℕ) (h : n < 100) : pyInt (pad2 n) = some (n : ℤ) :=
  (by decide : ∀ k < 100, pyInt (pad2 k) = some (k : ℤ)) n h

set_option maxRecDepth 4096 in
lemma pyFloat_secfrac0 (s : ℕ) (hs : s < 100) :
    pyFloat (pad2 s ++ '.' :: pad3 0) = some (f64OfDec false (s * 1000) (-3)) :=
  (by decide : ∀ k < 100,
    pyFloat (pad2 k ++ '.' :: pad3 0)
      = some (f64OfDec false (k * 1000) (-3))) s hs

set_option maxRecDepth 4096 in
lemma secfrac_rep (s : ℕ) (hs : s < 100) :
    intValRep (f64OfDec false (s * 1000) (-3)) (s : ℤ) 60 = true :=
  (by decide : ∀ k < 100,
    intValRep (f64OfDec false (k * 1000) (-3)) (k : ℤ) 60 = true) s hs

lemma commaToDot_append (a b : List Char) :
    commaToDot (a ++ b) = commaToDot a ++ commaToDot b := List.map_append _ a b

lemma commaToDot_cons (c : Char) (l : List Char) :
    commaToDot (c :: l) = (if c = ',' then '.' else c) :: commaToDot l := rfl

lemma commaToDot_pad2 (n : ℕ) (h : n < 100) : commaToDot (pad2 n) = pad2 n := by
  obtain ⟨-, hc1, -, -, -⟩ := digitChar_not_special (n / 10) (by omega)
  obtain ⟨-, hc2, -, -, -⟩ := digitChar_not_special (n % 10) (by omega)
  simp [commaToDot, pad2, hc1, hc2]

lemma commaToDot_pad3 (n : ℕ) (h : n < 1000) : commaToDot (pad3 n) = pad3 n := by
  obtain ⟨-, hc1, -, -, -⟩ := digitChar_not_special (n / 100) (by omega)
  obtain ⟨-, hc2, -, -, -⟩ := digitChar_not_special (n / 10 % 10) (by omega)
  obtain ⟨-, hc3, -, -, -⟩ := digitChar_not_special (n % 10) (by omega)
  simp [commaToDot, pad3, hc1, hc2, hc3]

lemma commaToDot_render (h m s ms : ℕ) (hh : h < 100) (hm : m < 100)
    (hs : s < 100) (hms : ms < 1000) :
    commaToDot (renderTimecode h m s ms).data
      = pad2 h ++ ':' :: (pad2 m ++ ':' :: (pad2 s ++ '.' :: pad3 ms)) := by
  show commaToDot (pad2 h ++ ':' :: (pad2 m ++ ':' :: (pad2 s ++ ',' :: pad3 ms)))
      = _
  rw [commaToDot_append, commaToDot_cons, commaToDot_append, commaToDot_cons,
    commaToDot_append, commaToDot_cons, commaToDot_pad2 h hh,
    commaToDot_pad2 m hm, commaToDot_pad2 s hs, commaToDot_pad3 ms hms,
    if_neg (by decide), if_pos rfl]

lemma bitlenAux_le_iff (fuel n k : ℕ) (hfuel : n ≤ fuel) :
    bitlenAux fuel n ≤ k ↔ n < 2 ^ k := by
  induction fuel generalizing n k with
  | zero =>
    have hn : n = 0 := by omega
    subst hn
    simp only [bitlenAux]
    constructor
    · intro _
      exact pow_pos (by norm_num) k
    · intro _
      exact Nat.zero_le _
  | succ fuel ih =>
    rw [bitlenAux]
    by_cases hn : n = 0
    · subst hn
      simp only [if_pos]
      constructor
      · intro _
        exact pow_pos (by norm_num) k
      · intro _
        exact Nat.zero_le _
    · rw [if_neg hn]
      cases k with
      | zero =>
        rw [pow_zero]
        omega
      | succ k2 =>
        have hrec := ih (n / 2) k2 (by omega)
        rw [pow_succ]
        omega

lemma bitlen_le_iff (n k : ℕ) : bitlen n ≤ k ↔ n < 2 ^ k :=
  bitlenAux_le_iff n n k le_rfl

lemma rneHalfEven_exact (m t : ℤ) (ht : 0 < t) (hdvd : t ∣ m) :
    rneHalfEven m t = m / t := by
  simp only [rneHalfEven]
  rw [Int.emod_eq_zero_of_dvd hdvd, if_pos (by omega : (2 : ℤ) * 0 < t)]

/-- Integers of at most 53 bits convert to binary64 exactly. -/
lemma roundFinite_id (a : ℤ) (h : a.natAbs < 2 ^ 53) :
    roundFinite a 0 = .finite a 0 := by
  by_cases ha : a = 0
  · subst ha
    rfl
  · have hb : bitlen a.natAbs ≤ 53 := (bitlen_le_iff _ _).mpr h
    have hb' : (bitlen a.natAbs : ℤ) ≤ 53 := by exact_mod_cast hb
    simp only [roundFinite]
    rw [if_neg ha, if_pos (by omega), if_neg (by omega)]

/-- Rounding a dyadic whose integer part has at most 53 significant bits
is exact: the result is the same integer, re-expressed with a smaller
power-of-two denominator if the significand had to be shortened. -/
lemma roundFinite_int_exact (X : ℤ) (k : ℕ) (hX1 : 1 ≤ X) (hX : X < 2 ^ 40)
    (hk : k ≤ 60) :
    ∃ k1 : ℕ, k1 ≤ k ∧ roundFinite (X * 2 ^ k) (-(k : ℤ))
      = .finite (X * 2 ^ k1) (-(k1 : ℤ)) := by
  have hp2 : (0 : ℤ) < 2 ^ k := by positivity
  have hpos : 0 < X * 2 ^ k := by positivity
  have habs : ((X * 2 ^ k).natAbs : ℤ) = X * 2 ^ k :=
    Int.natAbs_of_nonneg (by omega)
  have habslt : (X * 2 ^ k).natAbs < 2 ^ (40 + k) := by
    have h1 : X * 2 ^ k < 2 ^ (40 + k) := by
      rw [pow_add]
      nlinarith
    have h2 : ((X * 2 ^ k).natAbs : ℤ) < ((2 ^ (40 + k) : ℕ) : ℤ) := by
      rw [habs]
      push_cast
      exact h1
    exact_mod_cast h2
  have hble' : (bitlen (X * 2 ^ k).natAbs : ℤ) ≤ 40 + (k : ℤ) := by
    have h3 := (bitlen_le_iff _ (40 + k)).mpr habslt
    exact_mod_cast h3
  simp only [roundFinite]
  rw [if_neg (by omega : ¬X * 2 ^ k = 0)]
  set B : ℤ := (bitlen (X * 2 ^ k).natAbs : ℤ) with hBdef
  by_cases hsmall : B ≤ 53
  · refine ⟨k, le_rfl, ?_⟩
    rw [if_pos (max_le (by omega) (by omega)), if_neg (by omega)]
  · have hshift : max (B - 53) (-1074 - -(k : ℤ)) = B - 53 :=
      max_eq_left (by omega)
    rw [hshift, if_neg (by omega)]
    set σ : ℕ := (B - 53).toNat with hσdef
    have hσk : σ ≤ k := by omega
    have hσpos : (0 : ℤ) < 2 ^ σ := by positivity
    have hdvd : (2 : ℤ) ^ σ ∣ X * 2 ^ k :=
      Dvd.dvd.mul_left (pow_dvd_pow 2 hσk) X
    have hsplit : X * 2 ^ k = X * 2 ^ (k - σ) * 2 ^ σ := by
      rw [mul_assoc, ← pow_add]
      congr 2
      omega
    have hq : rneHalfEven ((X * 2 ^ k).natAbs : ℤ) (2 ^ σ)
        = X * 2 ^ (k - σ) := by
      rw [habs, rneHalfEven_exact _ _ hσpos hdvd]
      conv_lhs => rw [hsplit]
      exact Int.mul_ediv_cancel _ hσpos.ne'
    rw [hq]
    have hpos2 : 0 < X * 2 ^ (k - σ) := by positivity
    have hble2 : bitlen (X * 2 ^ (k - σ)).natAbs ≤ 40 + (k - σ) := by
      apply (bitlen_le_iff _ _).mpr
      have hp3 : (0 : ℤ) < 2 ^ (k - σ) := by positivity
      have habs2 : ((X * 2 ^ (k - σ)).natAbs : ℤ) = X * 2 ^ (k - σ) :=
        Int.natAbs_of_nonneg (by omega)
      have h1 : X * 2 ^ (k - σ) < 2 ^ (40 + (k - σ)) := by
        rw [pow_add]
        nlinarith
      have h2 : ((X * 2 ^ (k - σ)).natAbs : ℤ)
          < ((2 ^ (40 + (k - σ)) : ℕ) : ℤ) := by
        rw [habs2]
        push_cast
        exact h1
      exact_mod_cast h2
    rw [if_neg hpos2.ne', if_neg (by omega), if_pos hpos]
    refine ⟨k - σ, by omega, ?_⟩
    have he : -(k : ℤ) + (B - 53) = -(((k - σ : ℕ)) : ℤ) := by omega
    rw [he]

/-- The full arithmetic tail is exact on small integer inputs: adding an
integer-valued double `x` to an int `A` and scaling by 1000 yields exactly
`(A + x) * 1000` when everything fits in 53 bits. -/
lemma addMulTrunc_exact (A x : ℤ) (f : PyFloat64) (hA0 : 0 ≤ A)
    (hA : A < 2 ^ 20) (hx0 : 0 ≤ x) (hx : x < 2 ^ 20)
    (hf : intValRep f x 60 = true) :
    timePipeline A f = some ((A + x) * 1000) := by
  cases f with
  | posinf => simp [intValRep] at hf
  | neginf => simp [intValRep] at hf
  | nan => simp [intValRep] at hf
  | finite m e =>
    simp only [intValRep, Bool.and_eq_true, decide_eq_true_eq,
      beq_iff_eq] at hf
    obtain ⟨⟨he1, he2⟩, hm⟩ := hf
    obtain ⟨kk, hekk⟩ : ∃ kk : ℕ, e = -(kk : ℤ) := ⟨(-e).toNat, by omega⟩
    subst hekk
    rw [show ((-(-((kk : ℕ) : ℤ))).toNat) = kk by omega] at hm
    have hk60 : kk ≤ 60 := by omega
    have h53 : (2 : ℤ) ^ 20 ≤ 2 ^ 53 := by norm_num
    have h220 : (2 : ℤ) ^ 20 = 1048576 := by norm_num
    have h240 : (2 : ℤ) ^ 40 = 1099511627776 := by norm_num
    have h1 : roundFinite A 0 = .finite A 0 := roundFinite_id A (by omega)
    have h2 : f64AddInt A (.finite m (-(kk : ℤ)))
        = some (roundFinite ((A + x) * 2 ^ kk) (-(kk : ℤ))) := by
      simp only [f64AddInt, h1, hm]
      by_cases hkk : kk = 0
      · subst hkk
        norm_num
      · rw [if_neg (by omega : ¬(0 : ℤ) ≤ -((kk : ℕ) : ℤ))]
        rw [show ((0 : ℤ) - -((kk : ℕ) : ℤ)).toNat = kk by omega,
          show A * 2 ^ kk + x * 2 ^ kk = (A + x) * 2 ^ kk by ring]
    simp only [timePipeline, h2]
    by_cases hX0 : A + x = 0
    · rw [hX0, zero_mul]
      have hz : roundFinite 0 (-((kk : ℕ) : ℤ)) = .finite 0 0 := by
        simp [roundFinite]
      rw [hz]
      simp [f64Mul1000, roundFinite, pyIntOfF64]
    · have hAx : 1 ≤ A + x := by omega
      obtain ⟨k1, hk1, hr1⟩ := roundFinite_int_exact (A + x) kk
        (by omega) (by omega) hk60
      rw [hr1]
      simp only [f64Mul1000]
      rw [show (A + x) * 2 ^ k1 * 1000 = ((A + x) * 1000) * 2 ^ k1 by ring]
      obtain ⟨k2, hk2, hr2⟩ := roundFinite_int_exact ((A + x) * 1000) k1
        (by omega) (by omega) (by omega)
      rw [hr2]
      simp only [pyIntOfF64]
      by_cases hk20 : k2 = 0
      · subst hk20
        norm_num
      · have hp : (0 : ℤ) < 2 ^ k2 := by positivity
        rw [if_neg (by omega : ¬(0 : ℤ) ≤ -((k2 : ℕ) : ℤ)),
          if_neg (by
            rw [not_lt]
            nlinarith)]
        rw [show ((-(-((k2 : ℕ) : ℤ))).toNat) = k2 by omega]
        rw [Int.mul_ediv_cancel _ hp.ne']

/-- Structure of the parser on a rendered whole-second timecode: the three
fields parse to `h`, `m` and the double for `SS.000`, which then flow into
the arithmetic tail. -/
lemma timestampToMsOpt_render0 (h m s : ℕ) (hh : h < 100) (hm : m < 100)
    (hs : s < 100) :
    timestampToMsOpt (renderTimecode h m s 0)
      = timePipeline ((h : ℤ) * 3600 + (m : ℤ) * 60)
          (f64OfDec false (s * 1000) (-3)) := by
  unfold timestampToMsOpt
  rw [commaToDot_render h m s 0 hh hm hs (by omega)]
  have hg1 : ∀ c ∈ pad2 h, c ≠ ':' := by
    intro c hc
    simp [pad2] at hc
    rcases hc with h1 | h1 <;> subst h1 <;>
      exact (digitChar_not_special _ (by omega)).1
  have hg2 : ∀ c ∈ pad2 m, c ≠ ':' := by
    intro c hc
    simp [pad2] at hc
    rcases hc with h1 | h1 <;> subst h1 <;>
      exact (digitChar_not_special _ (by omega)).1
  have hg3 : ∀ c ∈ pad2 s ++ '.' :: pad3 0, c ≠ ':' := by
    intro c hc
    rw [List.mem_append, List.mem_cons] at hc
    rcases hc with hc | hc | hc
    · simp [pad2] at hc
      rcases hc with h1 | h1 <;> subst h1 <;>
        exact (digitChar_not_special _ (by omega)).1
    · subst hc
      decide
    · simp [pad3] at hc
      subst hc
      exact (digitChar_not_special _ (by omega)).1
  rw [splitOnChar_append ':' (pad2 h) hg1, splitOnChar_append ':' (pad2 m) hg2,
    splitOnChar_sepFree ':' (pad2 s ++ '.' :: pad3 0) hg3]
  simp only [pyInt_pad2 h hh, pyInt_pad2 m hm, pyFloat_secfrac0 s hs]


lemma create_speaker_audio_length (w : ℕ) (audio : List ℤ)
    (segments : List Segment) (speaker_id : String) :
    (create_speaker_audio w audio segments speaker_id).length
      = audio.length := by
  unfold create_speaker_audio
  rw [foldl_segmentStep_length, List.length_replicate]

/-- Overlaying an empty source leaves the destination unchanged. -/
lemma overlay_nil (w : ℕ) (acc : List ℤ) (p : ℤ) :
    overlay w acc [] p = acc := by
  rw [overlay_eq]
  simp

/-- An extraction whose (nonnegative) stop bound is at most its start
bound is empty. -/
lemma pydubSlice_empty_of_le (audio : List ℤ) (s e : ℤ) (he : 0 ≤ e)
    (hes : e ≤ s) : pydubSlice audio s e = [] := by
  rw [pydubSlice_eq, cutAt_of_nonneg audio.length e he,
    cutAt_of_nonneg audio.length s (le_trans he hes)]
  apply List.drop_eq_nil_of_le
  rw [List.length_take]
  omega

/-- A segment both of whose timecodes parse to the same nonnegative bounds
with `end ≤ start` contributes nothing to the composited track. -/
lemma segmentStep_id_of_empty (w : ℕ) (audio : List ℤ) (S : String)
    (sg : Segment)
    (he : 0 ≤ timestamp_to_milliseconds sg.«end»)
    (hes : timestamp_to_milliseconds sg.«end»
      ≤ timestamp_to_milliseconds sg.start) :
    ∀ acc : List ℤ, segmentStep w audio S acc sg = acc := by
  intro acc
  unfold segmentStep
  split_ifs with hsp
  · rw [pydubSlice_empty_of_le audio _ _ he hes, overlay_nil]
  · rfl

/-- Removing a contribution-free segment does not change the output. -/
lemma create_skip_empty_segment (w : ℕ) (audio : List ℤ)
    (l1 l2 : List Segment) (sg : Segment) (S : String)
    (hstep : ∀ acc : List ℤ, segmentStep w audio S acc sg = acc) :
    create_speaker_audio w audio (l1 ++ sg :: l2) S
      = create_speaker_audio w audio (l1 ++ l2) S := by
  unfold create_speaker_audio
  rw [List.foldl_append, List.foldl_cons, List.foldl_append, hstep]

lemma foldl_insertUnique_ne_nil (l : List Segment) (acc : List String)
    (h : acc ≠ []) :
    l.foldl (fun acc sg => insertUnique acc sg.speaker) acc ≠ [] := by
  induction l generalizing acc with
  | nil => exact h
  | cons sg l ih =>
    rw [List.foldl_cons]
    refine ih _ ?_
    unfold insertUnique
    split_ifs with hmem
    · exact h
    · simp

/-- The speaker set is empty exactly when the segment list is empty. -/
lemma uniqueSpeakers_eq_nil_iff (segs : List Segment) :
    uniqueSpeakers segs = [] ↔ segs = [] := by
  constructor
  · intro h
    cases segs with
    | nil => rfl
    | cons sg l =>
      exact absurd h
        (foldl_insertUnique_ne_nil l (insertUnique [] sg.speaker)
          (by simp [insertUnique]))
  · intro h
    subst h
    rfl

/-- Counterexample to claim C2 as stated: in the source `[10, 20, 30]`,
index 1 lies inside exactly one segment of speaker A — the first segment
covers `[0, 3)`, while the second segment's parsed interval `[1, -1)` is
empty, so it covers no index — yet the output at index 1 is 40, not the
source amplitude 20.  The second segment's end timecode parses to the
negative offset -1, which pydub slicing interprets as counting from the
end of the buffer, so that segment extracts `audio[1:-1] = [20]` and mixes
it on top of index 1. -/
theorem claim_C2_counterexample :
    (timestamp_to_milliseconds ("00:00:00,000") ≤ (1 : ℤ)
        ∧ (1 : ℤ) < timestamp_to_milliseconds ("00:00:00,003"))
      ∧ ¬(timestamp_to_milliseconds ("00:00:00,001") ≤ (1 : ℤ)
        ∧ (1 : ℤ) < timestamp_to_milliseconds ("00:00:-0,001"))
      ∧ (create_speaker_audio 2 [10, 20, 30]
          [⟨"A", "00:00:00,000", "00:00:00,003", ""⟩,
           ⟨"A", "00:00:00,001", "00:00:-0,001", ""⟩] "A")[1]?
        ≠ some 20 := by
  decide

/-- Claim C2 (amended): provided every timecode of speaker S's segments
parses to a nonnegative offset (as every well-formed `HH:MM:SS,mmm`
timecode does), a sample index of the source lying inside exactly one
segment of S receives exactly the source amplitude at that index (assumed
within the `w`-byte sample range, as every decoded sample is). -/
theorem claim_C2_content_preservation (w : ℕ) (audio : List ℤ)
    (l1 l2 : List Segment) (sg : Segment) (S : String) (i : ℕ) (v : ℤ)
    (hsp : sg.speaker = S)
    (hs0 : 0 ≤ timestamp_to_milliseconds sg.start)
    (hcov : timestamp_to_milliseconds sg.start ≤ (i : ℤ)
        ∧ (i : ℤ) < timestamp_to_milliseconds sg.«end»)
    (hiL : i < audio.length)
    (hv : audio[i]? = some v)
    (hlow : -(2 ^ (8 * w - 1)) ≤ v) (hhigh : v ≤ 2 ^ (8 * w - 1) - 1)
    (hothers : ∀ sg' ∈ l1 ++ l2, sg'.speaker = S →
      0 ≤ timestamp_to_milliseconds sg'.start
        ∧ 0 ≤ timestamp_to_milliseconds sg'.«end»
        ∧ ¬(timestamp_to_milliseconds sg'.start ≤ (i : ℤ)
            ∧ (i : ℤ) < timestamp_to_milliseconds sg'.«end»)) :
    (create_speaker_audio w audio (l1 ++ sg :: l2) S)[i]? = some v := by
  unfold create_speaker_audio
  rw [List.foldl_append, List.foldl_cons]
  have hacc1len : (l1.foldl (segmentStep w audio S)
      (List.replicate audio.length 0)).length = audio.length := by
    rw [foldl_segmentStep_length, List.length_replicate]
  have hacc1 : (l1.foldl (segmentStep w audio S)
      (List.replicate audio.length 0))[i]? = some 0 :=
    foldl_segmentStep_untouched w audio S l1 _ i v 0
      (by rw [List.length_replicate]) hv
      (by rw [List.getElem?_replicate, if_pos hiL])
      (untouched_of_safe audio S i hiL l1
        (fun sg' hm => hothers sg' (List.mem_append_left l2 hm)))
  have hstep := segmentStep_getElem? w audio S _ sg i hacc1len v 0 hv hacc1
  rw [if_pos ⟨hsp, touched_of_covered audio.length sg i hiL hs0 hcov⟩,
    satAdd_zero w v hlow hhigh] at hstep
  exact foldl_segmentStep_untouched w audio S l2 _ i v v
    (by rw [segmentStep_length]; exact hacc1len) hv hstep
    (untouched_of_safe audio S i hiL l2
      (fun sg' hm => hothers sg' (List.mem_append_right l1 hm)))

/-- Witness for claim C2 at a concrete input: one segment of speaker A
covering `[0, 2)` reproduces the source's sample at index 0. -/
theorem claim_C2_witness :
    (create_speaker_audio 2 [5, 7]
      [⟨"A", "00:00:00,000", "00:00:00,002", ""⟩] "A")[0]? = some 5 :=
  claim_C2_content_preservation 2 [5, 7] [] []
    ⟨"A", "00:00:00,000", "00:00:00,002", ""⟩ "A" 0 5 rfl (by decide)
    (by decide) (by decide) (by decide) (by decide) (by decide)
    (by intro sg' hm; simp at hm)

/-- Counterexample to claim C3 as stated: speaker A's only segment has
parsed interval `[1, -1)`, which contains no index, so index 1 is outside
all of A's segments; yet A's output at index 1 is the source sample 20,
not silence.  The negative parsed end makes pydub extract
`audio[1:-1] = [20]` and deposit it at index 1. -/
theorem claim_C3_counterexample :
    ¬(timestamp_to_milliseconds ("00:00:00,001") ≤ (1 : ℤ)
        ∧ (1 : ℤ) < timestamp_to_milliseconds ("00:00:-0,001"))
      ∧ (create_speaker_audio 2 [10, 20, 30]
          [⟨"A", "00:00:00,001", "00:00:-0,001", ""⟩] "A")[1]?
        ≠ some 0 := by
  decide

/-- Claim C3 (amended): provided every timecode of speaker S's segments
parses to a nonnegative offset, every sample index outside all of S's
segment intervals is silent (zero) in S's output; and for a speaker
absent from the segment list the output is all silence of full source
duration (and producing it is a total operation, not an error). -/
theorem claim_C3_silence_elsewhere :
    (∀ (w : ℕ) (audio : List ℤ) (segs : List Segment) (S : String) (i : ℕ),
      i < audio.length →
      (∀ sg ∈ segs, sg.speaker = S →
        0 ≤ timestamp_to_milliseconds sg.start
          ∧ 0 ≤ timestamp_to_milliseconds sg.«end»
          ∧ ¬(timestamp_to_milliseconds sg.start ≤ (i : ℤ)
              ∧ (i : ℤ) < timestamp_to_milliseconds sg.«end»)) →
      (create_speaker_audio w audio segs S)[i]? = some 0)
    ∧ (∀ (w : ℕ) (audio : List ℤ) (segs : List Segment) (S : String),
      (∀ sg ∈ segs, sg.speaker ≠ S) →
      create_speaker_audio w audio segs S
        = List.replicate audio.length 0) := by
  constructor
  · intro w audio segs S i hiL hsafe
    unfold create_speaker_audio
    exact foldl_segmentStep_untouched w audio S segs _ i audio[i] 0
      (by rw [List.length_replicate]) (List.getElem?_eq_getElem hiL)
      (by rw [List.getElem?_replicate, if_pos hiL])
      (untouched_of_safe audio S i hiL segs hsafe)
  · intro w audio segs S h
    unfold create_speaker_audio
    exact foldl_segmentStep_no_match w audio S segs _ h

/-- Witness for claim C3 at a concrete input: speaker A's only segment
covers `[0, 1)`, so index 1 is silent. -/
theorem claim_C3_witness :
    (create_speaker_audio 2 [3, 4]
      [⟨"A", "00:00:00,000", "00:00:00,001", ""⟩] "A")[1]? = some 0 :=
  claim_C3_silence_elsewhere.1 2 [3, 4]
    [⟨"A", "00:00:00,000", "00:00:00,001", ""⟩] "A" 1 (by decide)
    (by
      intro sg hm hsp
      simp at hm
      subst hm
      exact ⟨by decide, by decide, by decide⟩)

set_option maxRecDepth 8192 in
/-- Counterexample to claim C4 as stated: the well-formed timecode
`"00:00:01,001"` should yield `round(1.001 * 1000) = 1001` per the claim,
but the program computes the value with `int(float("01.001") * 1000)` in binary64
arithmetic: the double nearest 1.001 is slightly below it, multiplying by
1000 rounds to the double just below 1001, and `int()` truncates to
1000. -/
theorem claim_C4_counterexample :
    renderTimecode 0 0 1 1 = "00:00:01,001"
    ∧ timestamp_to_milliseconds ("00:00:01,001") = 1000
    ∧ timestamp_to_milliseconds ("00:00:01,001") ≠ 1001 := by
  refine ⟨rfl, by decide, by decide⟩

set_option maxRecDepth 8192 in
/-- Claim C4 (amended): on every *whole-second* timecode `HH:MM:SS,000`
the parser returns exactly `(hours*3600 + minutes*60 + seconds) * 1000`
milliseconds — here the binary64 arithmetic is exact — and the three
concrete examples of the claim hold: `"00:01:57,000"` parses to 117000,
`"00:00:00,500"` to 500 and `"01:00:00,000"` to 3600000.  With a nonzero
millisecond field, however, the result can fall one short of the claimed
`round(...)` value because `int()` truncates the inexact double product:
`"00:00:01,001"` parses to 1000, not 1001. -/
theorem claim_C4_timecode_parse :
    (∀ h m s : ℕ, h < 100 → m < 100 → s < 100 →
      timestamp_to_milliseconds (renderTimecode h m s 0)
        = ((h * 3600 + m * 60 + s) * 1000 : ℤ))
    ∧ timestamp_to_milliseconds ("00:01:57,000") = 117000
    ∧ timestamp_to_milliseconds ("00:00:00,500") = 500
    ∧ timestamp_to_milliseconds ("01:00:00,000") = 3600000
    ∧ timestamp_to_milliseconds ("00:00:01,001") = 1000 := by
  refine ⟨?_, by decide, by decide, by decide, by decide⟩
  intro h m s hh hm hs
  rw [timestamp_to_milliseconds, timestampToMsOpt_render0 h m s hh hm hs]
  have h220 : (2 : ℤ) ^ 20 = 1048576 := by norm_num
  have hA1 : ((h : ℤ) * 3600 + (m : ℤ) * 60) < 2 ^ 20 := by omega
  have hs' : ((s : ℤ)) < 2 ^ 20 := by omega
  rw [addMulTrunc_exact ((h : ℤ) * 3600 + (m : ℤ) * 60) (s : ℤ)
    (f64OfDec false (s * 1000) (-3)) (by positivity) hA1
    (Int.ofNat_nonneg s) hs' (secfrac_rep s hs)]
  simp only [Option.getD_some]

/-- Witness for claim C4 at a concrete input: `"01:02:03,000"`. -/
theorem claim_C4_witness :
    timestamp_to_milliseconds (renderTimecode 1 2 3 0) = 3723000 := by
  have h := claim_C4_timecode_parse.1 1 2 3 (by decide) (by decide)
    (by decide)
  simpa using h

lemma touchesB_iff (audio : List ℤ) (S : String) (i : ℕ) (sg : Segment) :
    touchesB audio S i sg = true
      ↔ sg.speaker = S ∧ segLo audio.length sg ≤ i
          ∧ i < segHi audio.length sg := by
  simp [touchesB, and_assoc]

/-- The value the compositor leaves at index `i` depends on the segment
list only through the *number* of segments of speaker `S` that cover `i`:
each such segment saturating-adds the same source sample `v = audio[i]`
(the slice is cut and then overlaid at the same offset), so the result is
that many iterations of `satAdd w · v`. -/
lemma foldl_segmentStep_iterate (w : ℕ) (audio : List ℤ) (S : String)
    (l : List Segment) (acc : List ℤ) (i : ℕ) (v a : ℤ)
    (hlen : acc.length = audio.length) (hv : audio[i]? = some v)
    (hacc : acc[i]? = some a) :
    (l.foldl (segmentStep w audio S) acc)[i]?
      = some ((fun y => satAdd w y v)^[l.countP (touchesB audio S i)] a) := by
  induction l generalizing acc a with
  | nil => simpa using hacc
  | cons sg t ih =>
    rw [List.foldl_cons, List.countP_cons]
    have hstep := segmentStep_getElem? w audio S acc sg i hlen v a hv hacc
    by_cases hT : sg.speaker = S ∧ segLo audio.length sg ≤ i
        ∧ i < segHi audio.length sg
    · rw [if_pos hT] at hstep
      rw [ih (segmentStep w audio S acc sg) (satAdd w a v)
        (by rw [segmentStep_length]; exact hlen) hstep]
      simp only [touchesB_iff]
      rw [if_pos hT, Function.iterate_succ_apply]
    · rw [if_neg hT] at hstep
      rw [ih (segmentStep w audio S acc sg) a
        (by rw [segmentStep_length]; exact hlen) hstep]
      simp only [touchesB_iff]
      rw [if_neg hT, Nat.add_zero]

set_option maxRecDepth 8192 in
/-- Counterexample to claim C5 as stated: with a 16-bit (2-byte) sample
width and source `[20000]`, two identical segments of speaker A covering
index 0 produce 32767 — the saturating `audioop.add` clips at the sample
range — not the arithmetic sum 40000. -/
theorem claim_C5_counterexample :
    (create_speaker_audio 2 [20000]
      [⟨"A", "00:00:00,000", "00:00:00,001", ""⟩,
       ⟨"A", "00:00:00,000", "00:00:00,001", ""⟩] "A")[0]?
      = some 32767
    ∧ (create_speaker_audio 2 [20000]
      [⟨"A", "00:00:00,000", "00:00:00,001", ""⟩,
       ⟨"A", "00:00:00,000", "00:00:00,001", ""⟩] "A")[0]?
      ≠ some (20000 + 20000) := by
  decide

/-- Claim C5 (amended): at a sample index covered by exactly two segments
of speaker S (both with nonnegative parsed offsets), the output is the
*saturating* sum of the two identical source contributions — the sum
clamped to the `w`-byte sample range, as `audioop.add` computes it — and
the mixing is fully order-independent: processing the same speaker's
segments in any order (any permutation of the document's segment list)
yields the identical output waveform, because every covering segment
deposits the same source sample at a given index. -/
theorem claim_C5_additive_overlap :
    (∀ (w : ℕ) (audio : List ℤ) (l1 l2 l3 : List Segment)
      (sg1 sg2 : Segment) (S : String) (i : ℕ) (v : ℤ),
      sg1.speaker = S → sg2.speaker = S →
      0 ≤ timestamp_to_milliseconds sg1.start →
      0 ≤ timestamp_to_milliseconds sg2.start →
      (timestamp_to_milliseconds sg1.start ≤ (i : ℤ)
        ∧ (i : ℤ) < timestamp_to_milliseconds sg1.«end») →
      (timestamp_to_milliseconds sg2.start ≤ (i : ℤ)
        ∧ (i : ℤ) < timestamp_to_milliseconds sg2.«end») →
      i < audio.length → audio[i]? = some v →
      -(2 ^ (8 * w - 1)) ≤ v → v ≤ 2 ^ (8 * w - 1) - 1 →
      (∀ sg' ∈ l1 ++ l2 ++ l3, sg'.speaker = S →
        0 ≤ timestamp_to_milliseconds sg'.start
          ∧ 0 ≤ timestamp_to_milliseconds sg'.«end»
          ∧ ¬(timestamp_to_milliseconds sg'.start ≤ (i : ℤ)
              ∧ (i : ℤ) < timestamp_to_milliseconds sg'.«end»)) →
      (create_speaker_audio w audio (l1 ++ sg1 :: (l2 ++ sg2 :: l3)) S)[i]?
        = some (satAdd w v v))
    ∧ (∀ (w : ℕ) (audio : List ℤ) (segs segs' : List Segment) (S : String),
      segs.Perm segs' →
      create_speaker_audio w audio segs S
        = create_speaker_audio w audio segs' S) := by
  constructor
  · intro w audio l1 l2 l3 sg1 sg2 S i v hsp1 hsp2 hs1 hs2 hc1 hc2 hiL hv
      hlow hhigh hothers
    unfold create_speaker_audio
    rw [List.foldl_append, List.foldl_cons, List.foldl_append,
      List.foldl_cons]
    have hlen1 : (l1.foldl (segmentStep w audio S)
        (List.replicate audio.length 0)).length = audio.length := by
      rw [foldl_segmentStep_length, List.length_replicate]
    have hacc1 : (l1.foldl (segmentStep w audio S)
        (List.replicate audio.length 0))[i]? = some 0 :=
      foldl_segmentStep_untouched w audio S l1 _ i v 0
        (by rw [List.length_replicate]) hv
        (by rw [List.getElem?_replicate, if_pos hiL])
        (untouched_of_safe audio S i hiL l1 (fun sg' hm => hothers sg'
          (by simp [hm])))
    have hstep1 := segmentStep_getElem? w audio S _ sg1 i hlen1 v 0 hv hacc1
    rw [if_pos ⟨hsp1, touched_of_covered audio.length sg1 i hiL hs1 hc1⟩,
      satAdd_zero w v hlow hhigh] at hstep1
    have hlen2 : (segmentStep w audio S (l1.foldl (segmentStep w audio S)
        (List.replicate audio.length 0)) sg1).length = audio.length := by
      rw [segmentStep_length]
      exact hlen1
    have hacc2 : (l2.foldl (segmentStep w audio S)
        (segmentStep w audio S (l1.foldl (segmentStep w audio S)
          (List.replicate audio.length 0)) sg1))[i]? = some v :=
      foldl_segmentStep_untouched w audio S l2 _ i v v hlen2 hv hstep1
        (untouched_of_safe audio S i hiL l2 (fun sg' hm => hothers sg'
          (by simp [hm])))
    have hlen3 : (l2.foldl (segmentStep w audio S)
        (segmentStep w audio S (l1.foldl (segmentStep w audio S)
          (List.replicate audio.length 0)) sg1)).length = audio.length := by
      rw [foldl_segmentStep_length]
      exact hlen2
    have hstep2 := segmentStep_getElem? w audio S _ sg2 i hlen3 v v hv hacc2
    rw [if_pos ⟨hsp2, touched_of_covered audio.length sg2 i hiL hs2 hc2⟩]
      at hstep2
    exact foldl_segmentStep_untouched w audio S l3 _ i v (satAdd w v v)
      (by rw [segmentStep_length]; exact hlen3) hv hstep2
      (untouched_of_safe audio S i hiL l3 (fun sg' hm => hothers sg'
        (by simp [hm])))
  · intro w audio segs segs' S hperm
    apply List.ext_getElem?
    intro i
    rcases Nat.lt_or_ge i audio.length with hiL | hiL
    · have hv := List.getElem?_eq_getElem hiL
      have hrep : (List.replicate audio.length (0 : ℤ))[i]? = some 0 := by
        rw [List.getElem?_replicate, if_pos hiL]
      have hreplen : (List.replicate audio.length (0 : ℤ)).length
          = audio.length := List.length_replicate audio.length 0
      unfold create_speaker_audio
      rw [foldl_segmentStep_iterate w audio S segs _ i audio[i] 0 hreplen
          hv hrep,
        foldl_segmentStep_iterate w audio S segs' _ i audio[i] 0 hreplen
          hv hrep,
        hperm.countP_eq]
    · rw [List.getElem?_eq_none
        (by rw [create_speaker_audio_length]; exact hiL),
        List.getElem?_eq_none
        (by rw [create_speaker_audio_length]; exact hiL)]

/-- Witness for claim C5 at a concrete input: two identical A-segments
over source `[7]` produce the saturating sum `satAdd 2 7 7 = 14`, and
swapping two segments leaves the output unchanged. -/
theorem claim_C5_witness :
    (create_speaker_audio 2 [7]
      [⟨"A", "00:00:00,000", "00:00:00,001", ""⟩,
       ⟨"A", "00:00:00,000", "00:00:00,001", ""⟩] "A")[0]?
      = some (satAdd 2 7 7)
    ∧ create_speaker_audio 2 [7]
        [⟨"A", "00:00:00,000", "00:00:00,001", ""⟩,
         ⟨"B", "00:00:00,000", "00:00:00,001", ""⟩] "A"
      = create_speaker_audio 2 [7]
        [⟨"B", "00:00:00,000", "00:00:00,001", ""⟩,
         ⟨"A", "00:00:00,000", "00:00:00,001", ""⟩] "A" := by
  constructor
  · exact claim_C5_additive_overlap.1 2 [7] [] [] []
      ⟨"A", "00:00:00,000", "00:00:00,001", ""⟩
      ⟨"A", "00:00:00,000", "00:00:00,001", ""⟩ "A" 0 7 rfl rfl
      (by decide) (by decide) (by decide) (by decide) (by decide)
      (by decide) (by decide) (by decide)
      (by intro sg' hm; simp at hm)
  · exact claim_C5_additive_overlap.2 2 [7]
      [⟨"A", "00:00:00,000", "00:00:00,001", ""⟩,
       ⟨"B", "00:00:00,000", "00:00:00,001", ""⟩]
      [⟨"B", "00:00:00,000", "00:00:00,001", ""⟩,
       ⟨"A", "00:00:00,000", "00:00:00,001", ""⟩] "A"
      (List.Perm.swap (⟨"B", "00:00:00,000", "00:00:00,001", ""⟩ : Segment)
        (⟨"A", "00:00:00,000", "00:00:00,001", ""⟩ : Segment) [])

lemma mem_dropWhile_or (p : Char → Bool) (l : List Char) (c : Char)
    (hc : c ∈ l) : c ∈ l.dropWhile p ∨ p c = true := by
  induction l with
  | nil => cases hc
  | cons x t ih =>
    rw [List.dropWhile_cons]
    by_cases hx : p x
    · rw [if_pos hx]
      rcases List.mem_cons.mp hc with h | hc2
      · right
        rw [h]
        exact hx
      · exact ih hc2
    · rw [if_neg hx]
      left
      exact hc

/-- Stripping surrounding whitespace only removes whitespace characters:
any other character of the original string survives. -/
lemma mem_strip_or_space (cs : List Char) (c : Char) (hc : c ∈ cs) :
    c ∈ stripPySpace cs ∨ isPySpace c = true := by
  unfold stripPySpace
  rcases mem_dropWhile_or _ cs c hc with h1 | h1
  · rw [← List.mem_reverse] at h1
    rcases mem_dropWhile_or _ _ c h1 with h2 | h2
    · left
      rw [List.mem_reverse]
      exact h2
    · right
      exact h2
  · right
    exact h1

/-- A digit run accepted by `parseUDigitsGo` consists of digits and
underscores only. -/
lemma parseUDigitsGo_chars (n : ℕ) : ∀ (cs : List Char), cs.length ≤ n →
    ∀ (acc cnt : ℕ) (p : ℕ × ℕ), parseUDigitsGo cs acc cnt = some p →
    ∀ c ∈ cs, (digitVal c).isSome = true ∨ c = '_' := by
  induction n with
  | zero =>
    intro cs hlen acc cnt p hp c hc
    have hnil : cs = [] := List.eq_nil_of_length_eq_zero (by omega)
    subst hnil
    cases hc
  | succ n ih =>
    intro cs hlen acc cnt p hp c hc
    cases cs with
    | nil => cases hc
    | cons c0 rest =>
      rw [parseUDigitsGo.eq_def] at hp
      by_cases h0 : c0 = '_'
      · cases rest with
        | nil =>
          rw [h0] at hp
          simp at hp
        | cons c2 rest2 =>
          cases hd2 : digitVal c2 with
          | none =>
            rw [h0] at hp
            simp [hd2] at hp
          | some d =>
            rw [h0] at hp
            simp only [hd2] at hp
            simp at hp
            rcases List.mem_cons.mp hc with h | hc2
            · right
              rw [h]
              exact h0
            · rcases List.mem_cons.mp hc2 with h | hc3
              · left
                rw [h, hd2]
                rfl
              · exact ih rest2 (by simp at hlen; omega) (10 * acc + d)
                  (cnt + 1) p hp c hc3
      · cases hd : digitVal c0 with
        | none =>
          simp [h0, hd] at hp
        | some d =>
          simp [h0, hd] at hp
          rcases List.mem_cons.mp hc with h | hc2
          · left
            rw [h, hd]
            rfl
          · exact ih rest (by simp at hlen; omega) (10 * acc + d) (cnt + 1)
              p hp c hc2

lemma parseUDigits_chars (cs : List Char) (p : ℕ × ℕ)
    (hp : parseUDigits cs = some p) :
    ∀ c ∈ cs, (digitVal c).isSome = true ∨ c = '_' := by
  intro c hc
  cases cs with
  | nil => cases hc
  | cons c0 rest =>
    rw [parseUDigits] at hp
    cases hd : digitVal c0 with
    | none =>
      rw [hd] at hp
      simp at hp
    | some d =>
      rw [hd] at hp
      rcases List.mem_cons.mp hc with h | hc2
      · left
        rw [h, hd]
        rfl
      · exact parseUDigitsGo_chars rest.length rest le_rfl d 1 p hp c hc2

/-- A string accepted by `int()` contains only `int`-literal characters:
this is true of the model and of CPython alike, so a field holding any
other ASCII character is guaranteed to make the parse raise. -/
lemma pyInt_chars (cs : List Char) (z : ℤ) (hp : pyInt cs = some z) :
    ∀ c ∈ cs, intLitChar c = true := by
  intro c hc
  rcases mem_strip_or_space cs c hc with hm | hsp
  · cases hst : stripPySpace cs with
    | nil =>
      rw [hst] at hm
      cases hm
    | cons c0 rest =>
      rw [hst] at hm
      simp only [pyInt, hst] at hp
      by_cases h0 : c0 = '-'
      · rw [if_pos h0] at hp
        cases hq : parseUDigits rest with
        | none =>
          rw [hq] at hp
          simp at hp
        | some q =>
          rcases List.mem_cons.mp hm with h | hm2
          · rw [h, h0]
            decide
          · rcases parseUDigits_chars rest q hq c hm2 with h | h
            · simp [intLitChar, h]
            · rw [h]
              decide
      · rw [if_neg h0] at hp
        by_cases h1 : c0 = '+'
        · rw [if_pos h1] at hp
          cases hq : parseUDigits rest with
          | none =>
            rw [hq] at hp
            simp at hp
          | some q =>
            rcases List.mem_cons.mp hm with h | hm2
            · rw [h, h1]
              decide
            · rcases parseUDigits_chars rest q hq c hm2 with h | h
              · simp [intLitChar, h]
              · rw [h]
                decide
        · rw [if_neg h1] at hp
          cases hq : parseUDigits (c0 :: rest) with
          | none =>
            rw [hq] at hp
            simp at hp
          | some q =>
            rcases parseUDigits_chars (c0 :: rest) q hq c hm with h | h
            · simp [intLitChar, h]
            · rw [h]
              decide
  · simp [intLitChar, hsp]

lemma mem_splitExpPart (cs : List Char) (c : Char) (hc : c ∈ cs) :
    c ∈ (splitExpPart cs).1
    ∨ (∃ ex, (splitExpPart cs).2 = some ex ∧ c ∈ ex)
    ∨ c = 'e' ∨ c = 'E' := by
  induction cs with
  | nil => cases hc
  | cons c0 rest ih =>
    simp only [splitExpPart]
    by_cases h0 : c0 = 'e' ∨ c0 = 'E'
    · rw [if_pos h0]
      rcases List.mem_cons.mp hc with h | hc2
      · right
        right
        rw [h]
        exact h0
      · right
        left
        exact ⟨rest, rfl, hc2⟩
    · rw [if_neg h0]
      rcases List.mem_cons.mp hc with h | hc2
      · left
        rw [h]
        exact List.mem_cons_self _ _
      · rcases ih hc2 with h | ⟨ex, hex, hcex⟩ | h
        · left
          exact List.mem_cons_of_mem _ h
        · right
          left
          exact ⟨ex, hex, hcex⟩
        · right
          right
          exact h

lemma mem_splitOnChar (sep : Char) (cs : List Char) (c : Char)
    (hc : c ∈ cs) :
    (∃ g ∈ splitOnChar sep cs, c ∈ g) ∨ c = sep := by
  induction cs with
  | nil => cases hc
  | cons c0 rest ih =>
    rcases hq : splitOnChar sep rest with _ | ⟨g, gs⟩
    · exact absurd hq (splitOnChar_ne_nil sep rest)
    · simp only [splitOnChar, hq]
      by_cases h0 : c0 = sep
      · rw [if_pos h0]
        rcases List.mem_cons.mp hc with h | hc2
        · right
          rw [h]
          exact h0
        · rcases ih hc2 with ⟨g2, hg2, hcg⟩ | hs
          · left
            rw [hq] at hg2
            exact ⟨g2, List.mem_cons_of_mem _ hg2, hcg⟩
          · right
            exact hs
      · rw [if_neg h0]
        rcases List.mem_cons.mp hc with h | hc2
        · left
          refine ⟨c0 :: g, List.mem_cons_self _ _, ?_⟩
          rw [h]
          exact List.mem_cons_self _ _
        · rcases ih hc2 with ⟨g2, hg2, hcg⟩ | hs
          · rw [hq] at hg2
            rcases List.mem_cons.mp hg2 with h | hg3
            · left
              refine ⟨c0 :: g, List.mem_cons_self _ _, ?_⟩
              rw [h] at hcg
              exact List.mem_cons_of_mem _ hcg
            · left
              exact ⟨g2, List.mem_cons_of_mem _ hg3, hcg⟩
          · right
            exact hs

lemma matchCI_chars : ∀ (cs : List Char) (ps : List (Char × Char)),
    (∀ p ∈ ps, floatLitChar p.1 = true ∧ floatLitChar p.2 = true) →
    matchCI cs ps = true → ∀ c ∈ cs, floatLitChar c = true := by
  intro cs
  induction cs with
  | nil =>
    intro ps hps hm c hc
    cases hc
  | cons c0 rest ih =>
    intro ps hps hm c hc
    cases ps with
    | nil => simp [matchCI] at hm
    | cons p pt =>
      simp only [matchCI, Bool.and_eq_true] at hm
      rcases List.mem_cons.mp hc with h | hc2
      · rw [h]
        have hp := hps p (List.mem_cons_self _ _)
        rcases (by simpa using hm.1 : c0 = p.1 ∨ c0 = p.2) with h2 | h2
        · rw [h2]
          exact hp.1
        · rw [h2]
          exact hp.2
      · exact ih pt (fun q hq => hps q (List.mem_cons_of_mem _ hq)) hm.2 c hc2

lemma parseExpPart_chars (cs : List Char) (z : ℤ)
    (hp : parseExpPart cs = some z) :
    ∀ c ∈ cs, (digitVal c).isSome = true ∨ c = '_' ∨ c = '+' ∨ c = '-' := by
  intro c hc
  cases cs with
  | nil => cases hc
  | cons c0 rest =>
    simp only [parseExpPart] at hp
    by_cases h0 : c0 = '-'
    · rw [if_pos h0] at hp
      cases hq : parseUDigits rest with
      | none =>
        rw [hq] at hp
        simp at hp
      | some q =>
        rcases List.mem_cons.mp hc with h | hc2
        · right
          right
          right
          rw [h]
          exact h0
        · rcases parseUDigits_chars rest q hq c hc2 with h | h
          · left
            exact h
          · right
            left
            exact h
    · rw [if_neg h0] at hp
      by_cases h1 : c0 = '+'
      · rw [if_pos h1] at hp
        cases hq : parseUDigits rest with
        | none =>
          rw [hq] at hp
          simp at hp
        | some q =>
          rcases List.mem_cons.mp hc with h | hc2
          · right
            right
            left
            rw [h]
            exact h1
          · rcases parseUDigits_chars rest q hq c hc2 with h | h
            · left
              exact h
            · right
              left
              exact h
      · rw [if_neg h1] at hp
        cases hq : parseUDigits (c0 :: rest) with
        | none =>
          rw [hq] at hp
          simp at hp
        | some q =>
          rcases parseUDigits_chars (c0 :: rest) q hq c hc with h | h
          · left
            exact h
          · right
            left
            exact h

lemma parseMantissa_chars (cs : List Char) (mf : ℕ × ℕ)
    (hp : parseMantissa cs = some mf) :
    ∀ c ∈ cs, (digitVal c).isSome = true ∨ c = '_' ∨ c = '.' := by
  intro c hc
  rcases mem_splitOnChar '.' cs c hc with ⟨g, hg, hcg⟩ | h
  · rcases hq : splitOnChar '.' cs with _ | ⟨g0, t0⟩
    · exact absurd hq (splitOnChar_ne_nil _ _)
    · rcases t0 with _ | ⟨g1, t1⟩
      · rw [hq] at hg
        simp only [parseMantissa, hq] at hp
        cases hq0 : parseUDigits g0 with
        | none =>
          rw [hq0] at hp
          simp at hp
        | some q =>
          have hgg : g = g0 := by simpa using hg
          rw [hgg] at hcg
          rcases parseUDigits_chars g0 q hq0 c hcg with h | h
          · left
            exact h
          · right
            left
            exact h
      · rcases t1 with _ | ⟨g2, t2⟩
        · rw [hq] at hg
          simp only [parseMantissa, hq] at hp
          have hgor : g = g0 ∨ g = g1 := by simpa using hg
          by_cases he0 : g0.isEmpty
          · have he0n : g0 = [] := by
              rw [← List.isEmpty_iff]
              exact he0
            by_cases he1 : g1.isEmpty
            · rw [if_pos (by simp [he0, he1])] at hp
              simp at hp
            · have he1f : g1.isEmpty = false := by simpa using he1
              rw [if_neg (by simp [he1f]), if_pos he0] at hp
              cases hq1 : parseUDigits g1 with
              | none =>
                rw [hq1] at hp
                simp at hp
              | some q =>
                rcases hgor with h | h
                · rw [h, he0n] at hcg
                  cases hcg
                · rw [h] at hcg
                  rcases parseUDigits_chars g1 q hq1 c hcg with h2 | h2
                  · left
                    exact h2
                  · right
                    left
                    exact h2
          · have he0f : g0.isEmpty = false := by simpa using he0
            by_cases he1 : g1.isEmpty
            · have he1n : g1 = [] := by
                rw [← List.isEmpty_iff]
                exact he1
              rw [if_neg (by simp [he0f]), if_neg he0, if_pos he1] at hp
              cases hq0 : parseUDigits g0 with
              | none =>
                rw [hq0] at hp
                simp at hp
              | some q =>
                rcases hgor with h | h
                · rw [h] at hcg
                  rcases parseUDigits_chars g0 q hq0 c hcg with h2 | h2
                  · left
                    exact h2
                  · right
                    left
                    exact h2
                · rw [h, he1n] at hcg
                  cases hcg
            · have he1f : g1.isEmpty = false := by simpa using he1
              rw [if_neg (by simp [he0f]), if_neg he0, if_neg he1] at hp
              cases hq0 : parseUDigits g0 with
              | none =>
                cases hq1 : parseUDigits g1 with
                | none =>
                  rw [hq0, hq1] at hp
                  simp at hp
                | some b =>
                  rw [hq0, hq1] at hp
                  simp at hp
              | some a =>
                cases hq1 : parseUDigits g1 with
                | none =>
                  rw [hq0, hq1] at hp
                  simp at hp
                | some b =>
                  rcases hgor with h | h
                  · rw [h] at hcg
                    rcases parseUDigits_chars g0 a hq0 c hcg with h2 | h2
                    · left
                      exact h2
                    · right
                      left
                      exact h2
                  · rw [h] at hcg
                    rcases parseUDigits_chars g1 b hq1 c hcg with h2 | h2
                    · left
                      exact h2
                    · right
                      left
                      exact h2
        · simp only [parseMantissa, hq] at hp
          simp at hp
  · right
    right
    exact h

/-- A string accepted by `float()` after sign stripping contains only
`float`-literal characters. -/
lemma pyFloatUnsignedVal_chars (cs : List Char) (f : PyFloat64)
    (hp : pyFloatUnsignedVal cs = some f) :
    ∀ c ∈ cs, floatLitChar c = true := by
  intro c hc
  simp only [pyFloatUnsignedVal] at hp
  by_cases h1 : (matchCI cs infPairs || matchCI cs infinityPairs) = true
  · rcases (by simpa using h1 :
        matchCI cs infPairs = true ∨ matchCI cs infinityPairs = true)
      with h2 | h2
    · exact matchCI_chars cs infPairs (by decide) h2 c hc
    · exact matchCI_chars cs infinityPairs (by decide) h2 c hc
  · rw [if_neg h1] at hp
    by_cases h2 : matchCI cs nanPairs = true
    · exact matchCI_chars cs nanPairs (by decide) h2 c hc
    · rw [if_neg h2] at hp
      cases hman : parseMantissa (splitExpPart cs).1 with
      | none =>
        rw [hman] at hp
        simp at hp
      | some mf =>
        rcases mem_splitExpPart cs c hc with hm1 | ⟨ex, hex, hcex⟩ | h | h
        · rcases parseMantissa_chars _ mf hman c hm1 with h | h | h
          · simp [floatLitChar, intLitChar, h]
          · rw [h]
            decide
          · rw [h]
            decide
        · simp only [hman, hex] at hp
          cases hxp : parseExpPart ex with
          | none =>
            rw [hxp] at hp
            simp at hp
          | some xv =>
            rcases parseExpPart_chars ex xv hxp c hcex with h | h | h | h
            · simp [floatLitChar, intLitChar, h]
            · rw [h]
              decide
            · rw [h]
              decide
            · rw [h]
              decide
        · rw [h]
          decide
        · rw [h]
          decide

/-- A string accepted by `float()` contains only `float`-literal
characters (whitespace included): true of both the model and CPython. -/
lemma pyFloat_chars (cs : List Char) (f : PyFloat64)
    (hp : pyFloat cs = some f) :
    ∀ c ∈ cs, floatLitChar c = true := by
  intro c hc
  rcases mem_strip_or_space cs c hc with hm | hsp
  · cases hst : stripPySpace cs with
    | nil =>
      rw [hst] at hm
      cases hm
    | cons c0 rest =>
      rw [hst] at hm
      simp only [pyFloat, hst] at hp
      by_cases h0 : c0 = '-'
      · rw [if_pos h0] at hp
        cases hq : pyFloatUnsignedVal rest with
        | none =>
          rw [hq] at hp
          simp at hp
        | some g =>
          rcases List.mem_cons.mp hm with h | hm2
          · rw [h, h0]
            decide
          · exact pyFloatUnsignedVal_chars rest g hq c hm2
      · rw [if_neg h0] at hp
        by_cases h1 : c0 = '+'
        · rw [if_pos h1] at hp
          rcases List.mem_cons.mp hm with h | hm2
          · rw [h, h1]
            decide
          · exact pyFloatUnsignedVal_chars rest f hp c hm2
        · rw [if_neg h1] at hp
          exact pyFloatUnsignedVal_chars (c0 :: rest) f hp c hm
  · simp [floatLitChar, intLitChar, hsp]

/-- Counterexample to claim C6 as stated: the string `"1:2:3:4"` has four
colon-separated fields — a wrong field count for `HH:MM:SS,mmm` — yet the
parser does not return 0: it silently ignores the fourth field and returns
3723000. -/
theorem claim_C6_counterexample :
    (splitOnChar ':' (commaToDot ("1:2:3:4").data)).length = 4
    ∧ timestamp_to_milliseconds ("1:2:3:4") ≠ 0 := by
  decide

/-- Claim C6 (amended): the parser returns 0 for a string with *fewer*
than three colon-separated fields, and for a string whose first three
fields contain a non-numeric component — any ASCII character that cannot
occur in a Python `int` literal (first two fields) or `float` literal
(third field) makes the conversion raise, caught as 0.  A string with
*more* than three fields is parsed from its first three fields and the
rest are ignored (so such a wrong field count does not yield 0), and
Python's numeric grammar is wider than `HH`/`MM`/`SS.mmm`: signs,
whitespace, underscores, exponents and `inf`/`nan` spellings can make an
unexpected field parse.  `"bad-time"` parses to 0, and a segment whose
timecodes both parse to 0 contributes nothing, so the remaining segments
are composited exactly as if it were absent. -/
theorem claim_C6_malformed_timecode :
    (∀ s : String, (splitOnChar ':' (commaToDot s.data)).length < 3 →
      timestamp_to_milliseconds s = 0)
    ∧ (∀ (s : String) (p0 p1 p2 : List Char) (rest : List (List Char)),
      splitOnChar ':' (commaToDot s.data) = p0 :: p1 :: p2 :: rest →
      ((∃ c ∈ p0, c.toNat < 128 ∧ intLitChar c = false)
        ∨ (∃ c ∈ p1, c.toNat < 128 ∧ intLitChar c = false)
        ∨ (∃ c ∈ p2, c.toNat < 128 ∧ floatLitChar c = false)) →
      timestamp_to_milliseconds s = 0)
    ∧ timestamp_to_milliseconds ("bad-time") = 0
    ∧ (∀ (w : ℕ) (audio : List ℤ) (l1 l2 : List Segment) (sg : Segment)
        (S : String),
      timestamp_to_milliseconds sg.start = 0 →
      timestamp_to_milliseconds sg.«end» = 0 →
      create_speaker_audio w audio (l1 ++ sg :: l2) S
        = create_speaker_audio w audio (l1 ++ l2) S) := by
  refine ⟨?_, ?_, by decide, ?_⟩
  · intro s hlen
    unfold timestamp_to_milliseconds timestampToMsOpt
    cases hsp : splitOnChar ':' (commaToDot s.data) with
    | nil => rfl
    | cons p0 t0 =>
      cases t0 with
      | nil => rfl
      | cons p1 t1 =>
        cases t1 with
        | nil => rfl
        | cons p2 rest =>
          rw [hsp] at hlen
          simp at hlen
          omega
  · intro s p0 p1 p2 rest hsp hpoison
    unfold timestamp_to_milliseconds timestampToMsOpt
    rw [hsp]
    rcases hpoison with ⟨c, hc, _, hbad⟩ | ⟨c, hc, _, hbad⟩ | ⟨c, hc, _, hbad⟩
    · cases hq0 : pyInt p0 with
      | none => simp [hq0]
      | some z0 =>
        have h := pyInt_chars p0 z0 hq0 c hc
        rw [hbad] at h
        cases h
    · cases hq0 : pyInt p0 with
      | none => simp [hq0]
      | some z0 =>
        cases hq1 : pyInt p1 with
        | none => simp [hq0, hq1]
        | some z1 =>
          have h := pyInt_chars p1 z1 hq1 c hc
          rw [hbad] at h
          cases h
    · cases hq0 : pyInt p0 with
      | none => simp [hq0]
      | some z0 =>
        cases hq1 : pyInt p1 with
        | none => simp [hq0, hq1]
        | some z1 =>
          cases hq2 : pyFloat p2 with
          | none => simp [hq0, hq1, hq2]
          | some f2 =>
            have h := pyFloat_chars p2 f2 hq2 c hc
            rw [hbad] at h
            cases h
  · intro w audio l1 l2 sg S hstart hend
    exact create_skip_empty_segment w audio l1 l2 sg S
      (segmentStep_id_of_empty w audio S sg (by simp [hend])
        (by simp [hstart, hend]))

/-- Witness for claim C6 at concrete inputs: a two-field string parses to
0, a third field poisoned by the ASCII letter `z` parses to 0, and a
segment with unparseable timecodes contributes nothing. -/
theorem claim_C6_witness :
    timestamp_to_milliseconds ("12:34") = 0
    ∧ timestamp_to_milliseconds ("00:00:z1") = 0
    ∧ create_speaker_audio 2 [5] [⟨"A", "bad-time", "bad-time", ""⟩] "A"
      = create_speaker_audio 2 [5] [] "A" := by
  refine ⟨?_, ?_, ?_⟩
  · exact claim_C6_malformed_timecode.1 ("12:34") (by decide)
  · exact claim_C6_malformed_timecode.2.1 ("00:00:z1") (['0', '0'])
      (['0', '0']) (['z', '1']) [] (by decide)
      (Or.inr (Or.inr ⟨'z', by decide, by decide, by decide⟩))
  · exact claim_C6_malformed_timecode.2.2.2 2 [5] [] []
      ⟨"A", "bad-time", "bad-time", ""⟩ "A" (by decide) (by decide)

/-- Counterexample to claim C7 as stated: the segment bounds parse to
start 1 and end -1, so end ≤ start, yet the extracted sub-range of the
3-sample source `[10, 20, 30]` is `[20]`, not empty: pydub interprets the
negative end as one millisecond before the end of the buffer. -/
theorem claim_C7_counterexample :
    timestamp_to_milliseconds ("00:00:-0,001")
      ≤ timestamp_to_milliseconds ("00:00:00,001")
    ∧ pydubSlice [10, 20, 30] (timestamp_to_milliseconds ("00:00:00,001"))
        (timestamp_to_milliseconds ("00:00:-0,001")) ≠ [] := by
  decide

/-- Claim C7 (amended): slicing first caps both bounds at the source
duration (so out-of-range offsets are clamped); a segment with
`0 ≤ end ≤ start` extracts an empty sub-range; and such a segment
contributes nothing — the run continues and composites the remaining
segments exactly as if it were absent.  (A *negative* parsed end is
instead interpreted as an offset from the end of the source, which can
make the extraction non-empty.) -/
theorem claim_C7_clamping :
    (∀ (audio : List ℤ) (s e : ℤ),
      pydubSlice audio s e
        = pydubSlice audio (min s (audio.length : ℤ))
            (min e (audio.length : ℤ)))
    ∧ (∀ (audio : List ℤ) (s e : ℤ), 0 ≤ e → e ≤ s →
      pydubSlice audio s e = [])
    ∧ (∀ (w : ℕ) (audio : List ℤ) (l1 l2 : List Segment) (sg : Segment)
        (S : String),
      0 ≤ timestamp_to_milliseconds sg.«end» →
      timestamp_to_milliseconds sg.«end»
        ≤ timestamp_to_milliseconds sg.start →
      create_speaker_audio w audio (l1 ++ sg :: l2) S
        = create_speaker_audio w audio (l1 ++ l2) S) := by
  refine ⟨?_, ?_, ?_⟩
  · intro audio s e
    unfold pydubSlice
    rw [min_assoc, min_self, min_assoc, min_self]
  · intro audio s e he hes
    exact pydubSlice_empty_of_le audio s e he hes
  · intro w audio l1 l2 sg S he hes
    exact create_skip_empty_segment w audio l1 l2 sg S
      (segmentStep_id_of_empty w audio S sg he hes)

/-- Witness for claim C7 at concrete inputs. -/
theorem claim_C7_witness :
    pydubSlice [5, 6] 1 1 = []
    ∧ create_speaker_audio 2 [5, 6]
        [⟨"A", "00:00:00,005", "00:00:00,001", ""⟩] "A"
      = create_speaker_audio 2 [5, 6] [] "A" := by
  constructor
  · exact claim_C7_clamping.2.1 [5, 6] 1 1 (by decide) (by decide)
  · exact claim_C7_clamping.2.2 2 [5, 6] [] []
      ⟨"A", "00:00:00,005", "00:00:00,001", ""⟩ "A" (by decide) (by decide)

/-- Counterexample to claim C8 as stated: a document whose only segment
carries the *empty* speaker identifier contains no segment with a
non-empty speaker identifier, yet it is not rejected — the Python check
`if not speakers:` only tests that the set of identifiers is non-empty as
a set, and `{""}` is non-empty — and an output is produced for the empty
identifier. -/
theorem claim_C8_counterexample :
    (([⟨"", "00:00:00,000", "00:00:01,000", ""⟩] : List Segment).all
      (fun sg => sg.speaker == "")) = true
    ∧ process_audio 2 [0, 0] [⟨"", "00:00:00,000", "00:00:01,000", ""⟩]
      ≠ none := by
  decide

/-- Claim C8 (amended): the run is rejected as fatal (no outputs produced)
exactly when the segments list is empty; any document with at least one
segment is processed, even when every speaker identifier is the empty
string. -/
theorem claim_C8_empty_document (w : ℕ) (audio : List ℤ)
    (segs : List Segment) :
    process_audio w audio segs = none ↔ segs = [] := by
  unfold process_audio
  split_ifs with hcond
  · simp [(uniqueSpeakers_eq_nil_iff segs).mp hcond]
  · have hne : segs ≠ [] :=
      fun h => hcond ((uniqueSpeakers_eq_nil_iff segs).mpr h)
    simp [hne]

/-- Witness for claim C8: the empty document is rejected. -/
theorem claim_C8_witness :
    process_audio 2 [1] ([] : List Segment) = none :=
  (claim_C8_empty_document 2 [1] []).mpr rfl

/-- Claim C10: the timestamp parser is a total function on all strings —
in this embedding the fallible core returns `none` exactly where the
Python code raises, and the caller catches every exception — so the parser
always returns an integer: the core's value when parsing succeeds, and 0
on every failure. -/
theorem claim_C10_parser_totality (s : String) :
    (∀ z : ℤ, timestampToMsOpt s = some z → timestamp_to_milliseconds s = z)
    ∧ (timestampToMsOpt s = none → timestamp_to_milliseconds s = 0) := by
  constructor
  · intro z hz
    rw [timestamp_to_milliseconds, hz]
    rfl
  · intro hz
    rw [timestamp_to_milliseconds, hz]
    rfl

/-- Witness for claim C10 at concrete inputs: a failing parse yields 0 and
a succeeding parse yields its value. -/
theorem claim_C10_witness :
    timestamp_to_milliseconds ("garbage") = 0
    ∧ timestamp_to_milliseconds ("00:00:02,000") = 2000 := by
  constructor
  · exact (claim_C10_parser_totality ("garbage")).2 (by decide)
  · exact (claim_C10_parser_totality ("00:00:02,000")).1 2000 (by decide)

end SpeakerSplitter
